import Mathlib

/-!
# Splay-tree workload generator (`hw2_splaygen.cpp`)

A shallow embedding of the generator's permutation engine (`nextrandom`,
`nextrandom2`, `swapa`, `randomize`), of its progression carver
(`makeprogression`) and of one length-iteration of `generate`, followed by
the properties established about them.

Conventions of the embedding:
* a C++ `int` is a mathematical integer; every arithmetic operation on values
  that can leave the 32-bit range is followed by `wrap32` (two's-complement
  wrap); the loop cursors stay between `-1` and the loop bound, so their
  increments and decrements are left unwrapped;
* the global array `a` is a list of integers whose length is the capacity of
  the buffer; an access outside the buffer is a fault (`none`);
* the C library generator `rand()` is a stream `rand : Nat → Int` together
  with the number `pos` of draws made so far;
* a loop whose trip count is not fixed on entry (`makeprogression`) is run
  with fuel and reports `Outcome.timeout` when the fuel is used up.
-/

namespace SplayGen

/-! ## Machine integers -/

/-- Two's-complement wrap of an integer into the range of a 32-bit `int`. -/
def wrap32 (x : Int) : Int := (x + 2147483648) % 4294967296 - 2147483648

/-- Addition of two `int`s. -/
def iadd (x y : Int) : Int := wrap32 (x + y)

/-- Subtraction of two `int`s. -/
def isub (x y : Int) : Int := wrap32 (x - y)

/-- Multiplication of two `int`s. -/
def imul (x y : Int) : Int := wrap32 (x * y)

/-- The C++ operator `/` on `int`s: the quotient is truncated towards zero. -/
def idiv (x y : Int) : Int := Int.tdiv x y

/-- The C++ operator `%` on `int`s: the remainder of the truncating division. -/
def irem (x y : Int) : Int := Int.tmod x y

/-! ## The global array and the trace of swaps -/

/-- The global `int a[MAX_LEN + 1]`, with the list of the calls `swapa(i, j)`
made so far (oldest first). -/
structure Mem where
  a : List Int
  swaps : List (Int × Int)
deriving DecidableEq, Repr

/-- Read of `a[k]`; `none` when `k` is outside the buffer. -/
def readA (a : List Int) (k : Int) : Option Int :=
  if 0 ≤ k then a.get? k.toNat else none

/-- Write `a[k] = v`; `none` when `k` is outside the buffer. -/
def writeA (a : List Int) (k : Int) (v : Int) : Option (List Int) :=
  if 0 ≤ k ∧ k.toNat < a.length then some (a.set k.toNat v) else none

/-- `swapa(i, j)`: `t = a[i]; a[i] = a[j]; a[j] = t`. -/
def swapa (i j : Int) (m : Mem) : Option Mem :=
  match readA m.a i with
  | none => none
  | some t =>
    match readA m.a j with
    | none => none
    | some x =>
      match writeA m.a i x with
      | none => none
      | some a1 =>
        match writeA a1 j t with
        | none => none
        | some a2 => some ⟨a2, m.swaps ++ [(i, j)]⟩

/-! ## The permutation engine -/

/-- `nextrandom()`: `rand() * rand() + rand()`, the three draws taken from left
to right; returns the value and the new draw count. -/
def nextrandom (rand : Nat → Int) (pos : Nat) : Int × Nat :=
  (iadd (imul (wrap32 (rand pos)) (wrap32 (rand (pos + 1)))) (wrap32 (rand (pos + 2))),
   pos + 3)

/-- `nextrandom2(A, B)`. -/
def nextrandom2 (rand : Nat → Int) (A B : Int) (pos : Nat) : Int × Nat :=
  if B ≤ A then (A, pos)
  else
    let n := nextrandom rand pos
    let offset := irem n.1 (isub (iadd 1 B) A)
    if offset < 0 then (isub A offset, n.2) else (iadd A offset, n.2)

/-- The loop of `randomize`, with `n` iterations left and cursor `i`. -/
def randomizeLoop (rand : Nat → Int) (len : Int) :
    Nat → Int → Mem → Nat → Option (Mem × Nat)
  | 0, _, m, pos => some (m, pos)
  | n + 1, i, m, pos =>
    let j := nextrandom2 rand 0 (len - 1) pos
    match swapa i j.1 m with
    | none => none
    | some m1 => randomizeLoop rand len n (i + 1) m1 j.2

/-- `randomize(len)`: `for (i = 0; i < len; i++) swapa(i, nextrandom2(0, len - 1))`. -/
def randomize (rand : Nat → Int) (len : Int) (m : Mem) (pos : Nat) : Option (Mem × Nat) :=
  randomizeLoop rand len len.toNat 0 m pos

/-! ## The progression carver -/

/-- Result of running a loop with fuel. -/
inductive Outcome (σ : Type) where
  | done (s : σ)
  | fault
  | timeout
deriving DecidableEq, Repr

/-- The index `s + inc*(x - A)` as the machine computes it. -/
def progIndex (A s inc x : Int) : Int := iadd s (imul inc (isub x A))

/-- One pass through the body of the loop of `makeprogression` at cursor `i`;
returns the memory and the cursor as the body leaves them (before `i++`). -/
def makeprogressionBody (A B s inc : Int) (m : Mem) (i : Int) : Option (Mem × Int) :=
  match readA m.a i with
  | none => none
  | some x =>
    if i = progIndex A s inc x then some (m, i)
    else if A ≤ x ∧ x ≤ B then
      match swapa i (progIndex A s inc x) m with
      | none => none
      | some m1 => some (m1, i - 1)
    else some (m, i)

/-- The loop of `makeprogression` from cursor `i`, at most `fuel` passes through the body. -/
def makeprogressionLoop (A B s inc len : Int) : Nat → Mem → Int → Outcome Mem
  | 0, m, i => if i < len then Outcome.timeout else Outcome.done m
  | fuel + 1, m, i =>
    if i < len then
      match makeprogressionBody A B s inc m i with
      | none => Outcome.fault
      | some r => makeprogressionLoop A B s inc len fuel r.1 (r.2 + 1)
    else Outcome.done m

/-- `makeprogression(A, B, s, inc, len)`. -/
def makeprogression (A B s inc len : Int) (fuel : Nat) (m : Mem) : Outcome Mem :=
  makeprogressionLoop A B s inc len fuel m 0

/-! ## One length-iteration of `generate` -/

/-- A token of the output stream: `"# n"`, `"I v"` or `"F v"`. -/
inductive Tok where
  | hdr (n : Int)
  | ins (v : Int)
  | fnd (v : Int)
deriving DecidableEq, Repr

/-- The state threaded through `generate`: the array with its swap trace, the number of draws
made from `rand()`, and the tokens printed so far (oldest first). -/
structure GenState where
  mem : Mem
  pos : Nat
  out : List Tok

/-- Sequencing of two computations that can fault or run out of fuel. -/
def Outcome.bind {α β : Type} (o : Outcome α) (f : α → Outcome β) : Outcome β :=
  match o with
  | Outcome.done x => f x
  | Outcome.fault => Outcome.fault
  | Outcome.timeout => Outcome.timeout

/-- The loop `for (i = 0; i < length; i++) a[i] = i`, with `n` iterations left and cursor `i`. -/
def initLoop : Nat → Int → List Int → Option (List Int)
  | 0, _, a => some a
  | n + 1, i, a =>
    match writeA a i i with
    | none => none
    | some a1 => initLoop n (i + 1) a1

/-- The arguments `(A, B, s, inc)` of one call of `makeprogression`. -/
structure Descriptor where
  A : Int
  B : Int
  s : Int
  inc : Int
deriving DecidableEq, Repr

/-- The arguments of the four calls of `makeprogression` made by `generate` for `length`,
in the order of the calls. -/
def descriptors (length : Int) : List Descriptor :=
  [ ⟨idiv length 4, iadd (idiv length 4) (idiv length 20), idiv length 10, 1⟩,
    ⟨idiv length 2, iadd (idiv length 2) (idiv length 20), idiv length 10, -1⟩,
    ⟨idiv (imul 3 length) 4, iadd (idiv (imul 3 length) 4) (idiv length 20),
      idiv length 2, -4⟩,
    ⟨idiv (imul 17 length) 20, iadd (idiv (imul 17 length) 20) (idiv length 20),
      idiv (imul 2 length) 5, 5⟩ ]

/-- The calls `makeprogression(d.A, d.B, d.s, d.inc, length)` for the descriptors of a list,
one after the other. -/
def carveAll (length : Int) (fuel : Nat) : List Descriptor → Mem → Outcome Mem
  | [], m => Outcome.done m
  | d :: ds, m =>
    (makeprogression d.A d.B d.s d.inc length fuel m).bind (carveAll length fuel ds)

/-- Lines 168-175 of `generate`: the array is set to the identity, shuffled, and carved four
times. -/
def buildArray (rand : Nat → Int) (fuel : Nat) (length : Int) (m : Mem) (pos : Nat) :
    Outcome (Mem × Nat) :=
  match initLoop length.toNat 0 m.a with
  | none => Outcome.fault
  | some a0 =>
    match randomize rand length ⟨a0, m.swaps⟩ pos with
    | none => Outcome.fault
    | some r =>
      (carveAll length fuel (descriptors length) r.1).bind fun m2 => Outcome.done (m2, r.2)

/-- The loop `for (i = length - 1; i >= 0; i--) printf("I %d\n", a[i])`, with `n` iterations
left and cursor `i`. -/
def insertLoop : Nat → Int → List Int → List Tok → Option (List Tok)
  | 0, _, _, out => some out
  | n + 1, i, a, out =>
    match readA a i with
    | none => none
    | some v => insertLoop n (i - 1) a (out ++ [Tok.ins v])

/-- The value `r = subset_size < length ? subset_size : length`. -/
def subsetRadius (subset_size length : Int) : Int :=
  if subset_size < length then subset_size else length

/-- The value of `iters` that `generate` computes from `r`. -/
def itersOf (r : Int) : Int :=
  if r ≤ 100 then 1000
  else if r ≥ 100000 then 20
  else if r ≥ 200000 then 5
  else if r ≥ 500000 then 2
  else 100

/-- The loop `for (j = 0; j < iters*r; j++) printf("F %d\n", a[nextrandom2(0, r - 1)])`, with
`n` iterations left. -/
def findLoop (rand : Nat → Int) (r : Int) (a : List Int) :
    Nat → Nat → List Tok → Option (Nat × List Tok)
  | 0, pos, out => some (pos, out)
  | n + 1, pos, out =>
    let k := nextrandom2 rand 0 (r - 1) pos
    match readA a k.1 with
    | none => none
    | some v => findLoop rand r a n k.2 (out ++ [Tok.fnd v])

/-- The body of the loop of `generate` over `length` (lines 168-197), `last` being the flag
`-l` and `subset_size` the value of `-t`. -/
def generateBlock (rand : Nat → Int) (last : Bool) (subset_size : Int) (fuel : Nat)
    (length : Int) (st : GenState) : Outcome GenState :=
  (buildArray rand fuel length st.mem st.pos).bind fun b =>
    match insertLoop length.toNat (length - 1) b.1.a (st.out ++ [Tok.hdr length]) with
    | none => Outcome.fault
    | some out1 =>
      match (if last then some b else randomize rand length b.1 b.2) with
      | none => Outcome.fault
      | some c =>
        let r := subsetRadius subset_size length
        let iters := itersOf r
        match findLoop rand r c.1.a (imul iters r).toNat c.2 out1 with
        | none => Outcome.fault
        | some f => Outcome.done ⟨c.1, f.1, f.2⟩

/-! ## Inspecting the scan of `makeprogression` -/

/-- The memory and the cursor after exactly `n` passes through the body of the loop of
`makeprogression`, started at cursor `i`; `none` when the loop leaves or faults before that. -/
def makeprogressionPasses (A B s inc len : Int) : Nat → Mem → Int → Option (Mem × Int)
  | 0, m, i => some (m, i)
  | n + 1, m, i =>
    if i < len then
      match makeprogressionBody A B s inc m i with
      | none => none
      | some r => makeprogressionPasses A B s inc len n r.1 (r.2 + 1)
    else none

/-! ## `sequential_generator` and `generate` -/

/-- The loop `for (i = 1; i <= elements; ++i) printf("I %d\n", i)`, with `n` iterations left
and cursor `i`. -/
def seqInsertLoop : Nat → Int → List Tok → List Tok
  | 0, _, out => out
  | n + 1, i, out => seqInsertLoop n (i + 1) (out ++ [Tok.ins i])

/-- The loop `for (i = 1; i <= elements / 2; ++i) printf("F %d\n", i)`, with `n` iterations
left and cursor `i`. -/
def seqFindLoop : Nat → Int → List Tok → List Tok
  | 0, _, out => out
  | n + 1, i, out => seqFindLoop n (i + 1) (out ++ [Tok.fnd i])

/-- The loop `for (j = 0; j < 2; ++j)` around the find loop, with `n` iterations left. -/
def seqFindPasses (elements : Int) : Nat → List Tok → List Tok
  | 0, out => out
  | n + 1, out => seqFindPasses elements n (seqFindLoop (idiv elements 2).toNat 1 out)

/-- The loop `for (elements = 100; elements <= 2000; elements += 100)` of
`sequential_generator`, with `n` iterations left. -/
def sequentialLoop : Nat → Int → List Tok → List Tok
  | 0, _, out => out
  | n + 1, elements, out =>
    sequentialLoop n (elements + 100)
      (seqFindPasses elements 2 (seqInsertLoop elements.toNat 1 (out ++ [Tok.hdr elements])))

/-- `sequential_generator()`: the tokens it prints after `out`. The loop over `elements` makes
`20` iterations. -/
def sequential_generator (out : List Tok) : List Tok :=
  sequentialLoop 20 100 out

/-- The values that the option loop of `generate` leaves in its four variables: `-b`, `-l`,
the argument of `-s` and the argument of `-t` (`-1` for an option that is absent). -/
structure Flags where
  sequential : Bool
  last : Bool
  student_id : Int
  subset_size : Int
deriving DecidableEq, Repr

/-- A message on the error stream: the invalid-generator diagnostic, the warning that the
student identifier defaults to `42`, the subset-size diagnostic. -/
inductive Diag where
  | invalidGenerator
  | studentIdDefault
  | subsetOutOfRange
deriving DecidableEq, Repr

/-- What a call of `generate` leaves behind: its return value, the tokens on the standard
output and the messages on the error stream. -/
structure Exit where
  code : Int
  out : List Tok
  err : List Diag
deriving DecidableEq, Repr

/-- The loop `for (length = 1000; length <= 1000000; length += 3000)` of `generate`, with `n`
iterations left. -/
def generateLoop (rand : Nat → Int) (last : Bool) (subset_size : Int) (fuel : Nat) :
    Nat → Int → GenState → Outcome GenState
  | 0, _, st => Outcome.done st
  | n + 1, length, st =>
    (generateBlock rand last subset_size fuel length st).bind
      (generateLoop rand last subset_size fuel n (length + 3000))

/-- `generate` from line 140 on, the options being parsed into `fl`. The stream of `rand()`
values that `srand(seed)` starts is `gen seed`; the loop over `length` makes `334` iterations;
`m` is the global array as the call finds it. -/
def generate (gen : Int → Nat → Int) (fl : Flags) (fuel : Nat) (m : Mem) : Outcome Exit :=
  if xor fl.sequential (decide (fl.subset_size < 0)) then
    Outcome.done ⟨1, [], [Diag.invalidGenerator]⟩
  else if fl.sequential then
    Outcome.done ⟨0, sequential_generator [], []⟩
  else
    let warn := if fl.student_id < 0 then [Diag.studentIdDefault] else []
    let student_id := if fl.student_id < 0 then 42 else fl.student_id
    if fl.subset_size < 10 ∨ fl.subset_size > 1000000 then
      Outcome.done ⟨1, [], warn ++ [Diag.subsetOutOfRange]⟩
    else
      (generateLoop (gen student_id) fl.last fl.subset_size fuel 334 1000 ⟨m, 0, []⟩).bind
        fun st => Outcome.done ⟨0, st.out, warn⟩

/-! ## Specification predicates -/

/-- The first `len` slots of `a` hold a permutation of `0, ..., len - 1`. -/
def IsPermPrefix (a : List Int) (len : Nat) : Prop :=
  len ≤ a.length ∧ (a.take len).Perm ((List.range len).map Int.ofNat)

instance (a : List Int) (len : Nat) : Decidable (IsPermPrefix a len) := by
  unfold IsPermPrefix; infer_instance

/-- Caller-side precondition of `makeprogression` on a prefix of length `n`. -/
structure CarvePre (A B s inc : Int) (n : Nat) : Prop where
  hA : 0 ≤ A
  hAB : A ≤ B
  hB : B ≤ (n : Int) - 1
  hinc : inc ≠ 0
  hdest : ∀ v, A ≤ v → v ≤ B → 0 ≤ s + inc * (v - A) ∧ s + inc * (v - A) < n
  hn : (n : Int) ≤ 2147483647

/-- The values of `[A, B]` that are not at their progression index. -/
def unparked (A B s inc : Int) (a : List Int) : Finset Int :=
  (Finset.Icc A B).filter (fun v => readA a (s + inc * (v - A)) ≠ some v)

/-- Loop invariant of `makeprogression` started on memory `m0`: the prefix is a permutation, the
slots the cursor has passed hold no value of `[A, B]` away from its progression index, slots that
are neither a progression index nor initially hold a value of `[A, B]` are untouched, and every
swap made so far stayed inside the prefix and parked a value. -/
structure CarveInv (A B s inc : Int) (n : Nat) (m0 m : Mem) (i : Int) : Prop where
  perm : IsPermPrefix m.a n
  lo : 0 ≤ i
  hi : i ≤ n
  passed : ∀ (j : Nat) (x : Int), (j : Int) < i → m.a[j]? = some x → A ≤ x → x ≤ B →
    (j : Int) = s + inc * (x - A)
  frame : ∀ j : Nat, (∀ v, A ≤ v → v ≤ B → s + inc * (v - A) ≠ j) →
    (∀ x, m0.a[j]? = some x → ¬ (A ≤ x ∧ x ≤ B)) → m.a[j]? = m0.a[j]?
  trace : ∃ ext, m.swaps = m0.swaps ++ ext ∧
    ext.length + (unparked A B s inc m.a).card ≤ (unparked A B s inc m0.a).card ∧
    ∀ q ∈ ext, 0 ≤ q.1 ∧ q.1 < n ∧ 0 ≤ q.2 ∧ q.2 < n


/-- One block of the sequential mode as the spec words it: `# elements`, then `I 1` to
`I elements` in ascending order, then two full passes of `F 1` to `F elements/2` in ascending
order. -/
def seqBlockSpec (elements : Nat) : List Tok :=
  Tok.hdr elements ::
    ((List.range elements).map (fun (i : Nat) => Tok.ins ((i : Int) + 1)) ++
      ((List.range (elements / 2)).map (fun (i : Nat) => Tok.fnd ((i : Int) + 1)) ++
        (List.range (elements / 2)).map (fun (i : Nat) => Tok.fnd ((i : Int) + 1))))

/-- The output of the sequential mode as the spec words it: the blocks for
`elements = 100, 200, ..., 2000`, in that order. -/
def seqOutputSpec : List Tok :=
  (List.range 20).flatMap (fun b => seqBlockSpec (100 * (b + 1)))

/-- Two buffers have room for `n` slots and hold the same values in their first `n` slots. -/
def AgreeOn (n : Nat) (a b : List Int) : Prop :=
  n ≤ a.length ∧ n ≤ b.length ∧ ∀ j, j < n → a[j]? = b[j]?

/-! ## Basic facts -/

theorem wrap32_of_range {x : Int} (h1 : -2147483648 ≤ x) (h2 : x ≤ 2147483647) : wrap32 x = x := by
  unfold wrap32; omega

theorem readA_natCast (a : List Int) (k : Nat) : readA a (k : Int) = a[k]? := by
  simp [readA]

theorem readA_eq_some {a : List Int} {k v : Int} (h : readA a k = some v) :
    ∃ j : Nat, k = j ∧ j < a.length ∧ a[j]? = some v := by
  unfold readA at h
  split at h
  · rename_i hk
    refine ⟨k.toNat, (Int.toNat_of_nonneg hk).symm, ?_, by simpa using h⟩
    have := List.get?_eq_some.1 h
    exact this.1
  · cases h

theorem set_set_perm_self (l : List Int) {i j : Nat} (hi : i < l.length) (hj : j < l.length) :
    ((l.set i l[j]).set j l[i]).Perm l := by
  rw [List.perm_iff_count]
  intro x
  rw [List.count_set _ _ _ _ (by simpa using hj), List.count_set _ _ _ _ hi]
  simp only [List.getElem_set, beq_iff_eq]
  have h1 : l[i] = x → 0 < l.count x := fun h => List.count_pos_iff.2 (h ▸ List.getElem_mem _)
  have h2 : l[j] = x → 0 < l.count x := fun h => List.count_pos_iff.2 (h ▸ List.getElem_mem _)
  by_cases hij : i = j
  · subst hij; simp; split <;> omega
  · simp only [hij, if_false]
    split <;> split <;> simp_all


theorem IsPermPrefix.val_range {a : List Int} {n j : Nat} {x : Int} (h : IsPermPrefix a n)
    (hj : j < n) (hx : a[j]? = some x) : 0 ≤ x ∧ x < n := by
  have hm : x ∈ a.take n := by
    apply List.getElem?_mem (n := j)
    rw [List.getElem?_take_of_lt hj]; exact hx
  have := (h.2.mem_iff).1 hm
  simp only [List.mem_map, List.mem_range] at this
  obtain ⟨k, hk, rfl⟩ := this
  simp; omega

theorem IsPermPrefix.inj {a : List Int} {n j k : Nat} {x : Int} (h : IsPermPrefix a n)
    (hj : j < n) (hk : k < n) (hx : a[j]? = some x) (hy : a[k]? = some x) : j = k := by
  have hnd : (a.take n).Nodup := by
    rw [h.2.nodup_iff]
    exact (List.nodup_range n).map (fun _ _ h => by simpa using h)
  have hlen : j < (a.take n).length := by rw [List.length_take]; have := h.1; omega
  have heq : (a.take n)[j]? = (a.take n)[k]? := by
    rw [List.getElem?_take_of_lt hj, List.getElem?_take_of_lt hk, hx, hy]
  exact List.getElem?_inj hlen hnd heq

theorem IsPermPrefix.surj {a : List Int} {n : Nat} {v : Int} (h : IsPermPrefix a n)
    (h0 : 0 ≤ v) (h1 : v < n) : ∃ j : Nat, j < n ∧ a[j]? = some v := by
  have hm : v ∈ a.take n := by
    rw [h.2.mem_iff]
    simp only [List.mem_map, List.mem_range]
    exact ⟨v.toNat, by omega, by simp; omega⟩
  obtain ⟨j, hj⟩ := List.mem_iff_getElem?.1 hm
  have hjn : j < n := by
    by_contra hc
    rw [List.getElem?_take_eq_none (by omega)] at hj
    cases hj
  exact ⟨j, hjn, by rwa [List.getElem?_take_of_lt hjn] at hj⟩

theorem IsPermPrefix.swap {a : List Int} {n k p : Nat} {x y : Int} (h : IsPermPrefix a n)
    (hk : k < n) (hp : p < n) (hx : a[k]? = some x) (hy : a[p]? = some y) :
    IsPermPrefix ((a.set k y).set p x) n := by
  refine ⟨by simpa using h.1, ?_⟩
  rw [List.set_take, List.set_take]
  have hl : (a.take n).length = n := by rw [List.length_take]; have := h.1; omega
  have hk2 : k < (a.take n).length := by omega
  have hp2 : p < (a.take n).length := by omega
  have e1 : (a.take n)[k] = x := by
    have : (a.take n)[k]? = some x := by rw [List.getElem?_take_of_lt hk]; exact hx
    rw [List.getElem?_eq_getElem hk2] at this; exact Option.some.inj this
  have e2 : (a.take n)[p] = y := by
    have : (a.take n)[p]? = some y := by rw [List.getElem?_take_of_lt hp]; exact hy
    rw [List.getElem?_eq_getElem hp2] at this; exact Option.some.inj this
  have := set_set_perm_self (a.take n) hk2 hp2
  rw [e1, e2] at this
  exact this.trans h.2

theorem swapa_of_get {m : Mem} {k p : Nat} {x y : Int} (hx : m.a[k]? = some x)
    (hy : m.a[p]? = some y) :
    swapa k p m = some ⟨(m.a.set k y).set p x, m.swaps ++ [((k : Int), (p : Int))]⟩ := by
  have hk : k < m.a.length := (List.getElem?_eq_some.1 hx).1
  have hp : p < m.a.length := (List.getElem?_eq_some.1 hy).1
  simp [swapa, readA, writeA, hk, hp, hx, hy]

theorem getElem?_swapped {a : List Int} {k p : Nat} {x y : Int} (hx : a[k]? = some x)
    (hy : a[p]? = some y) (j : Nat) :
    ((a.set k y).set p x)[j]? = if j = p then some x else if j = k then some y else a[j]? := by
  have hk : k < a.length := (List.getElem?_eq_some.1 hx).1
  have hp : p < a.length := (List.getElem?_eq_some.1 hy).1
  rw [List.getElem?_set, List.getElem?_set]
  by_cases h1 : j = p
  · subst h1; simp [hp]
  · by_cases h2 : j = k
    · subst h2; simp [hk, Ne.symm h1, h1]
    · simp [h1, h2, Ne.symm h1, Ne.symm h2]


theorem CarvePre.progIndex_eq {A B s inc : Int} {n : Nat} (h : CarvePre A B s inc n)
    {v : Int} (h1 : A ≤ v) (h2 : v ≤ B) : progIndex A s inc v = s + inc * (v - A) := by
  have d := h.hdest v h1 h2
  have dA := h.hdest A (le_refl _) h.hAB
  simp only [sub_self, mul_zero, add_zero] at dA
  have hn := h.hn
  have hB := h.hB
  have hA := h.hA
  unfold progIndex iadd imul isub
  rw [wrap32_of_range (x := v - A) (by omega) (by omega)]
  generalize inc * (v - A) = q at d ⊢
  rw [wrap32_of_range (x := q) (by omega) (by omega)]
  exact wrap32_of_range (by omega) (by omega)

theorem CarvePre.dest_inj {A B s inc : Int} {n : Nat} (h : CarvePre A B s inc n)
    {v w : Int} (e : s + inc * (v - A) = s + inc * (w - A)) : v = w := by
  have e2 : inc * (v - A) = inc * (w - A) := by omega
  have := mul_left_cancel₀ h.hinc e2
  omega

theorem unparked_card_le (A B s inc : Int) (a : List Int) :
    (unparked A B s inc a).card ≤ (B + 1 - A).toNat := by
  unfold unparked
  refine (Finset.card_filter_le _ _).trans ?_
  simp

/-- Induction rule for the loop of `makeprogression`: an invariant that every pass through the
body re-establishes while a measure drops is carried to the exit, given fuel for the measure. -/
theorem makeprogressionLoop_rule (A B s inc len : Int) (Inv : Mem → Int → Prop)
    (μ : Mem → Int → Nat)
    (hstep : ∀ m i, Inv m i → i < len →
      ∃ m1 i1, makeprogressionBody A B s inc m i = some (m1, i1) ∧ Inv m1 (i1 + 1) ∧
        μ m1 (i1 + 1) < μ m i) :
    ∀ (fuel : Nat) (m : Mem) (i : Int), Inv m i → μ m i ≤ fuel →
      ∃ m1 i1, makeprogressionLoop A B s inc len fuel m i = Outcome.done m1 ∧ Inv m1 i1 ∧
        ¬ i1 < len := by
  intro fuel
  induction fuel with
  | zero =>
    intro m i hI hμ
    by_cases hi : i < len
    · obtain ⟨m1, i1, _, _, hlt⟩ := hstep m i hI hi
      omega
    · exact ⟨m, i, by simp [makeprogressionLoop, hi], hI, hi⟩
  | succ fuel ih =>
    intro m i hI hμ
    by_cases hi : i < len
    · obtain ⟨m1, i1, hb, hI1, hlt⟩ := hstep m i hI hi
      obtain ⟨m2, i2, hr, hI2, hex⟩ := ih m1 (i1 + 1) hI1 (by omega)
      exact ⟨m2, i2, by simp [makeprogressionLoop, hi, hb, hr], hI2, hex⟩
    · exact ⟨m, i, by simp [makeprogressionLoop, hi], hI, hi⟩


theorem unparked_swap_lt {A B s inc : Int} {n : Nat} (hp : CarvePre A B s inc n)
    {a : List Int} (hperm : IsPermPrefix a n) {k p : Nat} {x y : Int}
    (hk : k < n) (hx : a[k]? = some x) (hy : a[p]? = some y)
    (hxA : A ≤ x) (hxB : x ≤ B) (hpq : s + inc * (x - A) = p) (hkp : (k : Int) ≠ p) :
    (unparked A B s inc ((a.set k y).set p x)).card < (unparked A B s inc a).card := by
  have hd := hp.hdest x hxA hxB
  have hpn : p < n := by rw [hpq] at hd; exact_mod_cast hd.2
  have hkp2 : k ≠ p := fun h => hkp (by exact_mod_cast h)
  apply Finset.card_lt_card
  rw [Finset.ssubset_iff_of_subset]
  · refine ⟨x, ?_, ?_⟩
    · simp only [unparked, Finset.mem_filter, Finset.mem_Icc]
      refine ⟨⟨hxA, hxB⟩, ?_⟩
      rw [hpq, readA_natCast, hy]
      intro h
      cases h
      exact hkp2 (hperm.inj hk hpn hx hy)
    · simp only [unparked, Finset.mem_filter, Finset.mem_Icc, not_and, not_not]
      intro _
      rw [hpq, readA_natCast, getElem?_swapped hx hy]
      simp
  · intro v hv
    simp only [unparked, Finset.mem_filter, Finset.mem_Icc] at hv ⊢
    refine ⟨hv.1, ?_⟩
    intro hold
    apply hv.2
    have hdv := hp.hdest v hv.1.1 hv.1.2
    obtain ⟨q, hq⟩ : ∃ q : Nat, s + inc * (v - A) = q := ⟨_, (Int.toNat_of_nonneg hdv.1).symm⟩
    rw [hq] at hold hdv ⊢
    rw [readA_natCast] at hold ⊢
    have hqn : q < n := by exact_mod_cast hdv.2
    have hvx : v ≠ x := by
      rintro rfl
      have : q = p := by
        have : (q : Int) = p := by rw [← hq, ← hpq]
        exact_mod_cast this
      subst this
      exact hkp2 (hperm.inj hk hqn hx hold)
    have hqp : q ≠ p := by
      rintro rfl
      exact hvx (hp.dest_inj (hq.trans hpq.symm))
    have hqk : q ≠ k := by
      rintro rfl
      rw [hx] at hold
      exact hvx (Option.some.inj hold).symm
    rw [getElem?_swapped hx hy, if_neg hqp, if_neg hqk]
    exact hold

theorem carve_step {A B s inc : Int} {n : Nat} (hp : CarvePre A B s inc n) (m0 : Mem) :
    ∀ m i, CarveInv A B s inc n m0 m i → i < (n : Int) →
      ∃ m1 i1, makeprogressionBody A B s inc m i = some (m1, i1) ∧
        CarveInv A B s inc n m0 m1 (i1 + 1) ∧
        ((n : Int) - (i1 + 1)).toNat + (unparked A B s inc m1.a).card <
          ((n : Int) - i).toNat + (unparked A B s inc m.a).card := by
  intro m i hI hi
  have hlo := hI.lo
  lift i to Nat using hlo with k
  have hk : k < n := by exact_mod_cast hi
  have hkl : k < m.a.length := lt_of_lt_of_le hk hI.perm.1
  obtain ⟨x, hx⟩ : ∃ x, m.a[k]? = some x := ⟨m.a[k], List.getElem?_eq_getElem hkl⟩
  have hread : readA m.a (k : Int) = some x := by rw [readA_natCast]; exact hx
  unfold makeprogressionBody
  rw [hread]; dsimp only
  by_cases h1 : (k : Int) = progIndex A s inc x
  · rw [if_pos h1]
    refine ⟨m, k, rfl, ?_, by omega⟩
    refine { hI with lo := by omega, hi := by omega, passed := ?_ }
    intro j y hj hy hA hB
    by_cases hjk : j = k
    · subst hjk
      rw [hx] at hy; cases hy
      rw [← hp.progIndex_eq hA hB]; exact h1
    · exact hI.passed j y (by omega) hy hA hB
  · rw [if_neg h1]
    by_cases h2 : A ≤ x ∧ x ≤ B
    · rw [if_pos h2]
      have hd := hp.hdest x h2.1 h2.2
      have hpe := hp.progIndex_eq h2.1 h2.2
      rw [hpe] at h1 ⊢
      obtain ⟨p, hpq⟩ : ∃ p : Nat, s + inc * (x - A) = p :=
        ⟨_, (Int.toNat_of_nonneg hd.1).symm⟩
      rw [hpq] at h1 hd ⊢
      have hpn : p < n := by exact_mod_cast hd.2
      have hpl : p < m.a.length := lt_of_lt_of_le hpn hI.perm.1
      obtain ⟨y, hy⟩ : ∃ y, m.a[p]? = some y := ⟨m.a[p], List.getElem?_eq_getElem hpl⟩
      have hlt := unparked_swap_lt hp hI.perm hk hx hy h2.1 h2.2 hpq h1
      rw [swapa_of_get hx hy]; dsimp only
      refine ⟨_, _, rfl, ?_, ?_⟩
      · refine ⟨hI.perm.swap hk hpn hx hy, by omega, by omega, ?_, ?_, ?_⟩
        · intro j z hj hz hA hB
          rw [getElem?_swapped hx hy] at hz
          have hjk : j ≠ k := by omega
          by_cases hjp : j = p
          · subst hjp
            rw [if_pos rfl] at hz; cases hz
            exact hpq.symm
          · rw [if_neg hjp, if_neg hjk] at hz
            exact hI.passed j z (by omega) hz hA hB
        · intro j hnd hnv
          have hjp : j ≠ p := by
            rintro rfl
            exact hnd x h2.1 h2.2 hpq
          have hjk : j ≠ k := by
            rintro rfl
            have := hI.frame j hnd hnv
            rw [hx] at this
            exact hnv x this.symm h2
          rw [getElem?_swapped hx hy, if_neg hjp, if_neg hjk]
          exact hI.frame j hnd hnv
        · obtain ⟨ext, he, hc, hr⟩ := hI.trace
          refine ⟨ext ++ [((k : Int), (p : Int))], ?_, ?_, ?_⟩
          · simp [he]
          · simp only [List.length_append, List.length_singleton]; omega
          · intro q hq
            rw [List.mem_append] at hq
            rcases hq with hq | hq
            · exact hr q hq
            · simp only [List.mem_singleton] at hq
              subst hq
              simp only
              omega
      · simp only
        omega
    · rw [if_neg h2]
      refine ⟨m, k, rfl, ?_, by omega⟩
      refine { hI with lo := by omega, hi := by omega, passed := ?_ }
      intro j y hj hy hA hB
      by_cases hjk : j = k
      · subst hjk
        rw [hx] at hy; cases hy
        exact absurd ⟨hA, hB⟩ h2
      · exact hI.passed j y (by omega) hy hA hB

/-! ## The carver: termination, postcondition and frame -/

theorem makeprogressionLoop_fuel_succ (A B s inc len : Int) :
    ∀ (fuel : Nat) (m : Mem) (i : Int) (m1 : Mem),
      makeprogressionLoop A B s inc len fuel m i = Outcome.done m1 →
      makeprogressionLoop A B s inc len (fuel + 1) m i = Outcome.done m1 := by
  intro fuel
  induction fuel with
  | zero =>
    intro m i m1 h
    by_cases hi : i < len
    · simp [makeprogressionLoop, hi] at h
    · simpa [makeprogressionLoop, hi] using h
  | succ fuel ih =>
    intro m i m1 h
    by_cases hi : i < len
    · rw [makeprogressionLoop, if_pos hi] at h ⊢
      cases hb : makeprogressionBody A B s inc m i with
      | none => rw [hb] at h; cases h
      | some r =>
        rw [hb] at h
        exact ih _ _ _ h
    · simpa [makeprogressionLoop, hi] using h

theorem makeprogressionLoop_fuel_mono (A B s inc len : Int) {f1 f2 : Nat} (hle : f1 ≤ f2)
    {m : Mem} {i : Int} {m1 : Mem}
    (h : makeprogressionLoop A B s inc len f1 m i = Outcome.done m1) :
    makeprogressionLoop A B s inc len f2 m i = Outcome.done m1 := by
  induction hle with
  | refl => exact h
  | step _ ih => exact makeprogressionLoop_fuel_succ A B s inc len _ _ _ _ ih

/-- Under the precondition and with fuel for `n + (B - A + 1)` passes, `makeprogression`
returns, and the loop invariant holds at the exit cursor `n`. -/
theorem makeprogression_inv {A B s inc : Int} {n : Nat} (hp : CarvePre A B s inc n)
    (m0 : Mem) (hperm : IsPermPrefix m0.a n) (fuel : Nat)
    (hf : n + (B - A + 1).toNat ≤ fuel) :
    ∃ m1, makeprogression A B s inc n fuel m0 = Outcome.done m1 ∧
      CarveInv A B s inc n m0 m1 n := by
  have h0 : CarveInv A B s inc n m0 m0 0 :=
    ⟨hperm, le_refl _, by omega, fun j x hj => by omega, fun _ _ _ => rfl,
      ⟨[], by simp, by simp, by simp⟩⟩
  have hc := unparked_card_le A B s inc m0.a
  have hAB := hp.hAB
  obtain ⟨m1, i1, hr, hI, hex⟩ := makeprogressionLoop_rule A B s inc n
    (CarveInv A B s inc n m0)
    (fun m i => ((n : Int) - i).toNat + (unparked A B s inc m.a).card)
    (carve_step hp m0) fuel m0 0 h0 (by simp only; omega)
  have : i1 = n := by have := hI.hi; omega
  subst this
  exact ⟨m1, hr, hI⟩

theorem CarveInv.post {A B s inc : Int} {n : Nat} {m0 m1 : Mem} (hp : CarvePre A B s inc n)
    (hI : CarveInv A B s inc n m0 m1 n) {v : Int} (h1 : A ≤ v) (h2 : v ≤ B) :
    readA m1.a (s + inc * (v - A)) = some v := by
  have hA := hp.hA
  have hB := hp.hB
  obtain ⟨j, hj, hv⟩ := hI.perm.surj (v := v) (by omega) (by omega)
  have := hI.passed j v (by exact_mod_cast hj) hv h1 h2
  rw [← this, readA_natCast]
  exact hv

theorem CarveInv.keeps {A B s inc : Int} {n : Nat} {m0 m1 : Mem} {i : Int}
    (hI : CarveInv A B s inc n m0 m1 i) {j x : Int} (hx : readA m0.a j = some x)
    (hout : ¬ (A ≤ x ∧ x ≤ B)) (hnd : ∀ v, A ≤ v → v ≤ B → s + inc * (v - A) ≠ j) :
    readA m1.a j = some x := by
  obtain ⟨k, rfl, _, hk⟩ := readA_eq_some hx
  rw [readA_natCast]
  rw [hI.frame k hnd (fun y hy => by rw [hk] at hy; cases hy; exact hout)]
  exact hk

theorem CarveInv.swaps_bound {A B s inc : Int} {n : Nat} {m0 m1 : Mem} {i : Int}
    (hp : CarvePre A B s inc n) (hI : CarveInv A B s inc n m0 m1 i) :
    ∃ ext, m1.swaps = m0.swaps ++ ext ∧ (ext.length : Int) ≤ B - A + 1 ∧
      ∀ q ∈ ext, 0 ≤ q.1 ∧ q.1 < n ∧ 0 ≤ q.2 ∧ q.2 < n := by
  obtain ⟨ext, he, hc, hr⟩ := hI.trace
  have := unparked_card_le A B s inc m0.a
  have hAB := hp.hAB
  exact ⟨ext, he, by omega, hr⟩

/-! ## The permutation engine: `nextrandom2` and `randomize` -/

theorem irem_bounds (n : Int) {m : Int} (hm : 0 < m) : -m < irem n m ∧ irem n m < m := by
  obtain ⟨k, rfl⟩ := Int.eq_ofNat_of_zero_le (le_of_lt hm)
  have hk : 0 < k := by exact_mod_cast hm
  unfold irem
  cases n with
  | ofNat a =>
    have h := Nat.mod_lt a hk
    show -(k : Int) < ((a % k : Nat) : Int) ∧ ((a % k : Nat) : Int) < (k : Int)
    omega
  | negSucc a =>
    have h := Nat.mod_lt (a + 1) hk
    show -(k : Int) < -((((a + 1) % k : Nat)) : Int) ∧ -((((a + 1) % k : Nat)) : Int) < (k : Int)
    omega

theorem nextrandom2_degenerate (rand : Nat → Int) (A B : Int) (pos : Nat) (h : B ≤ A) :
    nextrandom2 rand A B pos = (A, pos) := by
  simp [nextrandom2, h]

theorem nextrandom2_modulus {A B : Int} (hAB : A < B) (hrep : B - A + 1 ≤ 2147483647) :
    isub (iadd 1 B) A = B - A + 1 := by
  unfold isub iadd wrap32; omega

theorem nextrandom2_eq (rand : Nat → Int) (pos : Nat) {A B : Int} (hA : -2147483648 ≤ A)
    (hB : B ≤ 2147483647) (hAB : A < B) (hrep : B - A + 1 ≤ 2147483647) :
    nextrandom2 rand A B pos =
      (if Int.tmod (nextrandom rand pos).1 (B - A + 1) < 0
        then A - Int.tmod (nextrandom rand pos).1 (B - A + 1)
        else A + Int.tmod (nextrandom rand pos).1 (B - A + 1), pos + 3) := by
  have hb := irem_bounds (nextrandom rand pos).1 (m := B - A + 1) (by omega)
  unfold irem at hb
  have h2 : (nextrandom rand pos).2 = pos + 3 := rfl
  unfold nextrandom2
  rw [if_neg (by omega), nextrandom2_modulus hAB hrep]
  simp only [irem, h2]
  generalize (nextrandom rand pos).1 = n at hb ⊢
  split
  · rw [isub, wrap32_of_range (by omega) (by omega)]
  · rw [iadd, wrap32_of_range (by omega) (by omega)]

theorem nextrandom2_range (rand : Nat → Int) (pos : Nat) {A B : Int} (hA : -2147483648 ≤ A)
    (hB : B ≤ 2147483647) (hAB : A ≤ B) (hrep : B - A + 1 ≤ 2147483647) :
    A ≤ (nextrandom2 rand A B pos).1 ∧ (nextrandom2 rand A B pos).1 ≤ B := by
  rcases eq_or_lt_of_le hAB with h | h
  · subst h; simp [nextrandom2]
  · have hb := irem_bounds (nextrandom rand pos).1 (m := B - A + 1) (by omega)
    unfold irem at hb
    rw [nextrandom2_eq rand pos hA hB h hrep]
    dsimp only
    split <;> omega

theorem randomizeLoop_spec (rand : Nat → Int) (n : Nat) (hn : (n : Int) ≤ 2147483647) :
    ∀ (cnt i : Nat) (m : Mem) (pos : Nat), i + cnt = n → IsPermPrefix m.a n →
      ∃ m1 pos1, randomizeLoop rand n cnt i m pos = some (m1, pos1) ∧ IsPermPrefix m1.a n ∧
        ∃ ext, m1.swaps = m.swaps ++ ext ∧ ext.length = cnt ∧
          ∀ q ∈ ext, 0 ≤ q.1 ∧ q.1 < n ∧ 0 ≤ q.2 ∧ q.2 < n := by
  intro cnt
  induction cnt with
  | zero =>
    intro i m pos _ hperm
    exact ⟨m, pos, rfl, hperm, [], by simp, rfl, by simp⟩
  | succ cnt ih =>
    intro i m pos hi hperm
    have hin : i < n := by omega
    have hr := nextrandom2_range rand pos (A := 0) (B := (n : Int) - 1)
      (by omega) (by omega) (by omega) (by omega)
    obtain ⟨p, hp⟩ : ∃ p : Nat, (nextrandom2 rand 0 ((n : Int) - 1) pos).1 = p :=
      ⟨_, (Int.toNat_of_nonneg hr.1).symm⟩
    have hpn : p < n := by omega
    have hil : i < m.a.length := lt_of_lt_of_le hin hperm.1
    have hpl : p < m.a.length := lt_of_lt_of_le hpn hperm.1
    obtain ⟨x, hx⟩ : ∃ x, m.a[i]? = some x := ⟨m.a[i], List.getElem?_eq_getElem hil⟩
    obtain ⟨y, hy⟩ : ∃ y, m.a[p]? = some y := ⟨m.a[p], List.getElem?_eq_getElem hpl⟩
    obtain ⟨m1, pos1, hrun, hperm1, ext, he, hl, hq⟩ :=
      ih (i + 1) ⟨(m.a.set i y).set p x, m.swaps ++ [((i : Int), (p : Int))]⟩
        (nextrandom2 rand 0 ((n : Int) - 1) pos).2 (by omega) (hperm.swap hin hpn hx hy)
    refine ⟨m1, pos1, ?_, hperm1, ((i : Int), (p : Int)) :: ext, ?_, ?_, ?_⟩
    · rw [randomizeLoop]
      simp only [hp, swapa_of_get hx hy]
      exact_mod_cast hrun
    · rw [he]; simp
    · simp [hl]
    · intro q hq'
      rcases List.mem_cons.1 hq' with h | h
      · subst h; simp only; omega
      · exact hq q h

theorem randomize_spec (rand : Nat → Int) (n : Nat) (hn : (n : Int) ≤ 2147483647) (m : Mem)
    (pos : Nat) (hperm : IsPermPrefix m.a n) :
    ∃ m1 pos1, randomize rand n m pos = some (m1, pos1) ∧ IsPermPrefix m1.a n ∧
      ∃ ext, m1.swaps = m.swaps ++ ext ∧ ext.length = n ∧
        ∀ q ∈ ext, 0 ≤ q.1 ∧ q.1 < n ∧ 0 ≤ q.2 ∧ q.2 < n := by
  have := randomizeLoop_spec rand n hn n 0 m pos (by omega) hperm
  simpa [randomize] using this

/-! ## One length-iteration: the identity, the descriptors, the four carves -/

theorem initLoop_spec : ∀ (cnt i : Nat) (a : List Int), i + cnt ≤ a.length →
    ∃ a1, initLoop cnt i a = some a1 ∧ a1.length = a.length ∧
      ∀ j : Nat, a1[j]? = if i ≤ j ∧ j < i + cnt then some (j : Int) else a[j]? := by
  intro cnt
  induction cnt with
  | zero =>
    intro i a _
    refine ⟨a, rfl, rfl, fun j => ?_⟩
    rw [if_neg (by omega)]
  | succ cnt ih =>
    intro i a h
    have hi : i < a.length := by omega
    obtain ⟨a1, hrun, hlen, hget⟩ := ih (i + 1) (a.set i (i : Int)) (by simp; omega)
    refine ⟨a1, ?_, by simpa using hlen, fun j => ?_⟩
    · rw [initLoop]
      simp only [writeA, Int.toNat_ofNat, hi, and_true, Int.ofNat_zero_le, if_true]
      exact_mod_cast hrun
    · rw [hget j, List.getElem?_set]
      by_cases h1 : i = j
      · subst h1; simp [hi]
      · by_cases h2 : i + 1 ≤ j ∧ j < i + 1 + cnt
        · rw [if_pos h2, if_pos (by omega)]
        · rw [if_neg h2, if_neg h1, if_neg (by omega)]

theorem initLoop_perm (n : Nat) (a : List Int) (h : n ≤ a.length) :
    ∃ a1, initLoop n 0 a = some a1 ∧ IsPermPrefix a1 n := by
  obtain ⟨a1, hrun, hlen, hget⟩ := initLoop_spec n 0 a (by omega)
  refine ⟨a1, hrun, by omega, List.Perm.of_eq ?_⟩
  apply List.ext_getElem?
  intro j
  by_cases hj : j < n
  · rw [List.getElem?_take_of_lt hj, hget j, if_pos (by omega), List.getElem?_map,
      List.getElem?_range hj]
    rfl
  · rw [List.getElem?_take_eq_none (by omega), List.getElem?_eq_none (by simp; omega)]

theorem isPermPrefix_identity (n : Nat) : IsPermPrefix ((List.range n).map Int.ofNat) n := by
  refine ⟨by simp, ?_⟩
  rw [List.take_of_length_le (by simp)]

theorem idiv_of_nonneg {x y : Int} (hx : 0 ≤ x) (hy : 0 ≤ y) : idiv x y = x / y :=
  Int.tdiv_eq_ediv hx hy

/-- On the lengths of the schedule no operation of the descriptors wraps, and the truncated
quotients are the floor quotients. -/
theorem descriptors_eq {L : Int} (h0 : 0 ≤ L) (h1 : L ≤ 1000000) :
    descriptors L =
      [ ⟨L / 4, L / 4 + L / 20, L / 10, 1⟩,
        ⟨L / 2, L / 2 + L / 20, L / 10, -1⟩,
        ⟨3 * L / 4, 3 * L / 4 + L / 20, L / 2, -4⟩,
        ⟨17 * L / 20, 17 * L / 20 + L / 20, 2 * L / 5, 5⟩ ] := by
  have e3 : imul 3 L = 3 * L := wrap32_of_range (by omega) (by omega)
  have e17 : imul 17 L = 17 * L := wrap32_of_range (by omega) (by omega)
  have e2 : imul 2 L = 2 * L := wrap32_of_range (by omega) (by omega)
  unfold descriptors
  rw [e3, e17, e2]
  rw [idiv_of_nonneg h0 (by omega), idiv_of_nonneg h0 (by omega),
    idiv_of_nonneg h0 (by omega), idiv_of_nonneg h0 (by omega),
    idiv_of_nonneg (x := 3 * L) (by omega) (by omega),
    idiv_of_nonneg (x := 17 * L) (by omega) (by omega),
    idiv_of_nonneg (x := 2 * L) (by omega) (by omega)]
  have a1 : iadd (L / 4) (L / 20) = L / 4 + L / 20 := wrap32_of_range (by omega) (by omega)
  have a2 : iadd (L / 2) (L / 20) = L / 2 + L / 20 := wrap32_of_range (by omega) (by omega)
  have a3 : iadd (3 * L / 4) (L / 20) = 3 * L / 4 + L / 20 :=
    wrap32_of_range (by omega) (by omega)
  have a4 : iadd (17 * L / 20) (L / 20) = 17 * L / 20 + L / 20 :=
    wrap32_of_range (by omega) (by omega)
  rw [a1, a2, a3, a4]

theorem schedule_pre1 {L : Nat} (hL : ∃ k : Nat, k ≤ 333 ∧ L = 1000 + 3000 * k) :
    CarvePre ((L : Int) / 4) ((L : Int) / 4 + (L : Int) / 20) ((L : Int) / 10) 1 L := by
  obtain ⟨k, hk, rfl⟩ := hL
  refine ⟨by omega, by omega, by omega, by decide, fun v h1 h2 => by omega, by omega⟩

theorem schedule_pre2 {L : Nat} (hL : ∃ k : Nat, k ≤ 333 ∧ L = 1000 + 3000 * k) :
    CarvePre ((L : Int) / 2) ((L : Int) / 2 + (L : Int) / 20) ((L : Int) / 10) (-1) L := by
  obtain ⟨k, hk, rfl⟩ := hL
  refine ⟨by omega, by omega, by omega, by decide, fun v h1 h2 => by omega, by omega⟩

theorem schedule_pre3 {L : Nat} (hL : ∃ k : Nat, k ≤ 333 ∧ L = 1000 + 3000 * k) :
    CarvePre (3 * (L : Int) / 4) (3 * (L : Int) / 4 + (L : Int) / 20) ((L : Int) / 2) (-4) L := by
  obtain ⟨k, hk, rfl⟩ := hL
  refine ⟨by omega, by omega, by omega, by decide, fun v h1 h2 => by omega, by omega⟩

theorem schedule_pre4 {L : Nat} (hL : ∃ k : Nat, k ≤ 333 ∧ L = 1000 + 3000 * k) :
    CarvePre (17 * (L : Int) / 20) (17 * (L : Int) / 20 + (L : Int) / 20) (2 * (L : Int) / 5)
      5 L := by
  obtain ⟨k, hk, rfl⟩ := hL
  refine ⟨by omega, by omega, by omega, by decide, fun v h1 h2 => by omega, by omega⟩

/-- The four carves of a length of the schedule, run on a permutation with fuel for `2 * L`
passes each: all four return, and each satisfies the carver's exit invariant. -/
theorem carveAll_schedule {L : Nat} (hL : ∃ k : Nat, k ≤ 333 ∧ L = 1000 + 3000 * k)
    (m : Mem) (hperm : IsPermPrefix m.a L) (fuel : Nat) (hf : 2 * L ≤ fuel) :
    ∃ m1 m2 m3 m4, carveAll L fuel (descriptors L) m = Outcome.done m4 ∧
      CarveInv ((L : Int) / 4) ((L : Int) / 4 + (L : Int) / 20) ((L : Int) / 10) 1 L m m1 L ∧
      CarveInv ((L : Int) / 2) ((L : Int) / 2 + (L : Int) / 20) ((L : Int) / 10) (-1) L
        m1 m2 L ∧
      CarveInv (3 * (L : Int) / 4) (3 * (L : Int) / 4 + (L : Int) / 20) ((L : Int) / 2) (-4) L
        m2 m3 L ∧
      CarveInv (17 * (L : Int) / 20) (17 * (L : Int) / 20 + (L : Int) / 20)
        (2 * (L : Int) / 5) 5 L m3 m4 L := by
  have hL' := hL
  obtain ⟨k, hk, hLk⟩ := hL'
  obtain ⟨m1, r1, i1⟩ := makeprogression_inv (schedule_pre1 hL) m hperm fuel (by omega)
  obtain ⟨m2, r2, i2⟩ := makeprogression_inv (schedule_pre2 hL) m1 i1.perm fuel (by omega)
  obtain ⟨m3, r3, i3⟩ := makeprogression_inv (schedule_pre3 hL) m2 i2.perm fuel (by omega)
  obtain ⟨m4, r4, i4⟩ := makeprogression_inv (schedule_pre4 hL) m3 i3.perm fuel (by omega)
  refine ⟨m1, m2, m3, m4, ?_, i1, i2, i3, i4⟩
  rw [descriptors_eq (by omega) (by omega)]
  simp only [carveAll, r1, r2, r3, r4, Outcome.bind]

/-- Lines 168-175 on a length of the schedule, for any buffer that has room for `L` slots:
the shuffled identity `mr` is a permutation, the four carves return, and each satisfies the
carver's exit invariant. -/
theorem buildArray_schedule (rand : Nat → Int) {L : Nat}
    (hL : ∃ k : Nat, k ≤ 333 ∧ L = 1000 + 3000 * k) (m : Mem) (hcap : L ≤ m.a.length)
    (pos : Nat) (fuel : Nat) (hf : 2 * L ≤ fuel) :
    ∃ mr pos1 m1 m2 m3 m4, buildArray rand fuel L m pos = Outcome.done (m4, pos1) ∧
      IsPermPrefix mr.a L ∧
      (∃ ext, mr.swaps = m.swaps ++ ext ∧
        ∀ q ∈ ext, 0 ≤ q.1 ∧ q.1 < L ∧ 0 ≤ q.2 ∧ q.2 < L) ∧
      CarveInv ((L : Int) / 4) ((L : Int) / 4 + (L : Int) / 20) ((L : Int) / 10) 1 L mr m1 L ∧
      CarveInv ((L : Int) / 2) ((L : Int) / 2 + (L : Int) / 20) ((L : Int) / 10) (-1) L
        m1 m2 L ∧
      CarveInv (3 * (L : Int) / 4) (3 * (L : Int) / 4 + (L : Int) / 20) ((L : Int) / 2) (-4) L
        m2 m3 L ∧
      CarveInv (17 * (L : Int) / 20) (17 * (L : Int) / 20 + (L : Int) / 20)
        (2 * (L : Int) / 5) 5 L m3 m4 L := by
  have hL' := hL
  obtain ⟨k, hk, hLk⟩ := hL'
  obtain ⟨a0, hinit, hp0⟩ := initLoop_perm L m.a hcap
  obtain ⟨mr, pos1, hrand, hpr, ext, hext, _, hq⟩ :=
    randomize_spec rand L (by omega) ⟨a0, m.swaps⟩ pos hp0
  obtain ⟨m1, m2, m3, m4, hc, i1, i2, i3, i4⟩ := carveAll_schedule hL mr hpr fuel hf
  refine ⟨mr, pos1, m1, m2, m3, m4, ?_, hpr, ⟨ext, hext, hq⟩, i1, i2, i3, i4⟩
  simp only [buildArray, Int.toNat_ofNat, hinit, hrand, hc, Outcome.bind]

theorem insertLoop_spec (a : List Int) : ∀ (n : Nat) (out : List Tok), n ≤ a.length →
    insertLoop n ((n : Int) - 1) a out = some (out ++ (a.take n).reverse.map Tok.ins) := by
  intro n
  induction n with
  | zero => intro out _; simp [insertLoop]
  | succ n ih =>
    intro out h
    have hn : n < a.length := by omega
    have e : ((n + 1 : Nat) : Int) - 1 = (n : Int) := by omega
    have ht : (a.take (n + 1)).reverse = a[n] :: (a.take n).reverse := by
      rw [List.take_succ, List.getElem?_eq_getElem hn]; simp
    rw [e, insertLoop, readA_natCast, List.getElem?_eq_getElem hn]
    simp only
    rw [ih _ (by omega), ht]
    simp

theorem findLoop_spec (rand : Nat → Int) (a : List Int) (r : Nat) (h1 : 1 ≤ r)
    (h2 : r ≤ a.length) (h3 : (r : Int) ≤ 2147483647) :
    ∀ (cnt pos : Nat) (out : List Tok),
      ∃ pos1 toks, findLoop rand r a cnt pos out = some (pos1, out ++ toks) ∧
        toks.length = cnt ∧
        ∀ t ∈ toks, ∃ (j : Nat) (v : Int), j < r ∧ a[j]? = some v ∧ t = Tok.fnd v := by
  intro cnt
  induction cnt with
  | zero => intro pos out; exact ⟨pos, [], by simp [findLoop], rfl, by simp⟩
  | succ cnt ih =>
    intro pos out
    have hr := nextrandom2_range rand pos (A := 0) (B := (r : Int) - 1)
      (by omega) (by omega) (by omega) (by omega)
    obtain ⟨p, hp⟩ : ∃ p : Nat, (nextrandom2 rand 0 ((r : Int) - 1) pos).1 = p :=
      ⟨_, (Int.toNat_of_nonneg hr.1).symm⟩
    have hpr : p < r := by omega
    have hpl : p < a.length := by omega
    obtain ⟨pos1, toks, hrun, hlen, hall⟩ :=
      ih (nextrandom2 rand 0 ((r : Int) - 1) pos).2 (out ++ [Tok.fnd a[p]])
    refine ⟨pos1, Tok.fnd a[p] :: toks, ?_, by simp [hlen], ?_⟩
    · rw [findLoop]
      simp only [hp, readA_natCast, List.getElem?_eq_getElem hpl]
      rw [hrun]; simp
    · intro t ht
      rcases List.mem_cons.1 ht with h | h
      · exact ⟨p, a[p], hpr, List.getElem?_eq_getElem hpl, h⟩
      · exact hall t h

theorem subsetRadius_bounds {L : Nat} (hL : ∃ k : Nat, k ≤ 333 ∧ L = 1000 + 3000 * k)
    {subset_size : Int} (hs1 : 10 ≤ subset_size) :
    ∃ r : Nat, (r : Int) = subsetRadius subset_size L ∧ 10 ≤ r ∧ r ≤ L := by
  obtain ⟨k, hk, rfl⟩ := hL
  unfold subsetRadius
  split
  · exact ⟨subset_size.toNat, by omega, by omega, by omega⟩
  · exact ⟨1000 + 3000 * k, rfl, by omega, le_refl _⟩

theorem imul_itersOf {r : Int} (h0 : 0 ≤ r) (h1 : r ≤ 1000000) :
    imul (itersOf r) r = itersOf r * r := by
  unfold imul itersOf
  split_ifs <;> exact wrap32_of_range (by omega) (by omega)

/-- One length-iteration of `generate` on a length of the schedule with an accepted
`subset_size`: the block returns, it prints `# L`, the carved array from slot `L - 1` down to
slot `0`, and `iters * r` finds, each read from one of the first `r` slots of the array `c.1`
that the finds are sampled from. -/
theorem generateBlock_schedule (rand : Nat → Int) (last : Bool) {L : Nat}
    (hL : ∃ k : Nat, k ≤ 333 ∧ L = 1000 + 3000 * k) {subset_size : Int}
    (hs1 : 10 ≤ subset_size) (st : GenState)
    (hcap : L ≤ st.mem.a.length) (fuel : Nat) (hf : 2 * L ≤ fuel) :
    ∃ (mb : Mem) (pb : Nat) (c : Mem × Nat) (r pos1 : Nat) (finds : List Tok),
      buildArray rand fuel L st.mem st.pos = Outcome.done (mb, pb) ∧ IsPermPrefix mb.a L ∧
      (if last then some (mb, pb) else randomize rand L mb pb) = some c ∧
      IsPermPrefix c.1.a L ∧
      (r : Int) = subsetRadius subset_size L ∧ 10 ≤ r ∧ r ≤ L ∧
      generateBlock rand last subset_size fuel L st =
        Outcome.done ⟨c.1, pos1,
          st.out ++ Tok.hdr L :: ((mb.a.take L).reverse.map Tok.ins ++ finds)⟩ ∧
      finds.length = (itersOf r * r).toNat ∧
      ∀ t ∈ finds, ∃ (j : Nat) (v : Int), j < r ∧ c.1.a[j]? = some v ∧ t = Tok.fnd v := by
  have hL' := hL
  obtain ⟨k, hk, hLk⟩ := hL'
  obtain ⟨mr, pb, m1, m2, m3, mb, hb, _, _, _, _, _, i4⟩ :=
    buildArray_schedule rand hL st.mem hcap st.pos fuel hf
  have hpb := i4.perm
  obtain ⟨c, hc, hpc⟩ : ∃ c : Mem × Nat,
      (if last then some (mb, pb) else randomize rand L mb pb) = some c ∧
        IsPermPrefix c.1.a L := by
    cases last with
    | true => exact ⟨(mb, pb), by simp, hpb⟩
    | false =>
      obtain ⟨m5, p5, h5, hp5, _⟩ := randomize_spec rand L (by omega) mb pb hpb
      exact ⟨(m5, p5), by simpa using h5, hp5⟩
  obtain ⟨r, hr, hr1, hr2⟩ := subsetRadius_bounds hL hs1
  obtain ⟨pos1, finds, hfind, hlen, hall⟩ :=
    findLoop_spec rand c.1.a r (by omega) (le_trans hr2 hpc.1) (by omega)
      (itersOf r * r).toNat c.2
      (st.out ++ [Tok.hdr L] ++ (mb.a.take L).reverse.map Tok.ins)
  refine ⟨mb, pb, c, r, pos1, finds, hb, hpb, hc, hpc, hr, hr1, hr2, ?_, hlen, hall⟩
  have hins := insertLoop_spec mb.a L (st.out ++ [Tok.hdr L]) hpb.1
  unfold generateBlock
  rw [hb]
  simp only [Outcome.bind, Int.toNat_ofNat, hins, hc, ← hr,
    imul_itersOf (r := (r : Int)) (by omega) (by omega), hfind]
  simp

/-- What the four carves leave of the four progressions on a length of the schedule: the
second and the fourth progression are whole; the first has lost its first slot `L / 10` to the
value `L / 2` of the second; the third holds at every slot that is not a slot of the fourth. -/
theorem buildArray_progressions (rand : Nat → Int) {L : Nat}
    (hL : ∃ k : Nat, k ≤ 333 ∧ L = 1000 + 3000 * k) (m : Mem) (hcap : L ≤ m.a.length)
    (pos : Nat) (fuel : Nat) (hf : 2 * L ≤ fuel) :
    ∃ mb pb, buildArray rand fuel L m pos = Outcome.done (mb, pb) ∧ IsPermPrefix mb.a L ∧
      (∀ v, (L : Int) / 4 < v → v ≤ (L : Int) / 4 + (L : Int) / 20 →
        readA mb.a ((L : Int) / 10 + 1 * (v - (L : Int) / 4)) = some v) ∧
      (∀ v, (L : Int) / 2 ≤ v → v ≤ (L : Int) / 2 + (L : Int) / 20 →
        readA mb.a ((L : Int) / 10 + -1 * (v - (L : Int) / 2)) = some v) ∧
      (∀ v, 3 * (L : Int) / 4 ≤ v → v ≤ 3 * (L : Int) / 4 + (L : Int) / 20 →
        (∀ w, 17 * (L : Int) / 20 ≤ w → w ≤ 17 * (L : Int) / 20 + (L : Int) / 20 →
          2 * (L : Int) / 5 + 5 * (w - 17 * (L : Int) / 20) ≠
            (L : Int) / 2 + -4 * (v - 3 * (L : Int) / 4)) →
        readA mb.a ((L : Int) / 2 + -4 * (v - 3 * (L : Int) / 4)) = some v) ∧
      (∀ v, 17 * (L : Int) / 20 ≤ v → v ≤ 17 * (L : Int) / 20 + (L : Int) / 20 →
        readA mb.a (2 * (L : Int) / 5 + 5 * (v - 17 * (L : Int) / 20)) = some v) := by
  obtain ⟨mr, pb, m1, m2, m3, m4, hb, _, _, i1, i2, i3, i4⟩ :=
    buildArray_schedule rand hL m hcap pos fuel hf
  have p1 := schedule_pre1 hL
  have p2 := schedule_pre2 hL
  have p3 := schedule_pre3 hL
  have p4 := schedule_pre4 hL
  obtain ⟨k, hk, rfl⟩ := hL
  refine ⟨m4, pb, hb, i4.perm, ?_, ?_, ?_, ?_⟩
  · intro v h1 h2
    have q1 := i1.post p1 (v := v) (by omega) h2
    have q2 := i2.keeps q1 (by omega) (fun w _ _ => by omega)
    have q3 := i3.keeps q2 (by omega) (fun w _ _ => by omega)
    exact i4.keeps q3 (by omega) (fun w _ _ => by omega)
  · intro v h1 h2
    have q2 := i2.post p2 (v := v) h1 h2
    have q3 := i3.keeps q2 (by omega) (fun w _ _ => by omega)
    exact i4.keeps q3 (by omega) (fun w _ _ => by omega)
  · intro v h1 h2 hfree
    have q3 := i3.post p3 (v := v) h1 h2
    exact i4.keeps q3 (by omega) hfree
  · intro v h1 h2
    exact i4.post p4 h1 h2

/-! ## The carver on an array whose progression is already in place, and on colliding indices -/

/-- When every value of `[A, B]` already sits at its progression index, no pass through the
body swaps, and `makeprogression` returns the memory it was given. -/
theorem makeprogression_parked_noop {A B s inc : Int} {n : Nat} (hp : CarvePre A B s inc n)
    (m : Mem) (hperm : IsPermPrefix m.a n)
    (hparked : ∀ v, A ≤ v → v ≤ B → readA m.a (s + inc * (v - A)) = some v)
    (fuel : Nat) (hf : n ≤ fuel) :
    makeprogression A B s inc n fuel m = Outcome.done m := by
  obtain ⟨m1, i1, hr, hI, _⟩ := makeprogressionLoop_rule A B s inc n
    (fun m1 i => m1 = m ∧ 0 ≤ i ∧ i ≤ n) (fun _ i => ((n : Int) - i).toNat)
    (by
      rintro m1 i ⟨rfl, hlo, hhi⟩ hi
      lift i to Nat using hlo with k
      have hk : k < n := by exact_mod_cast hi
      have hkl : k < m1.a.length := lt_of_lt_of_le hk hperm.1
      have hx : m1.a[k]? = some m1.a[k] := List.getElem?_eq_getElem hkl
      have hread : readA m1.a (k : Int) = some m1.a[k] := by rw [readA_natCast]; exact hx
      refine ⟨m1, k, ?_, ⟨rfl, by omega, by omega⟩, by omega⟩
      unfold makeprogressionBody
      rw [hread]; dsimp only
      by_cases h1 : (k : Int) = progIndex A s inc m1.a[k]
      · rw [if_pos h1]
      · rw [if_neg h1]
        by_cases h2 : A ≤ m1.a[k] ∧ m1.a[k] ≤ B
        · exfalso
          apply h1
          rw [hp.progIndex_eq h2.1 h2.2]
          have hd := hp.hdest _ h2.1 h2.2
          have hpk := hparked _ h2.1 h2.2
          obtain ⟨p, hpq⟩ : ∃ p : Nat, s + inc * (m1.a[k] - A) = p :=
            ⟨_, (Int.toNat_of_nonneg hd.1).symm⟩
          rw [hpq] at hpk hd ⊢
          rw [readA_natCast] at hpk
          have hpn : p < n := by exact_mod_cast hd.2
          have := hperm.inj hk hpn hx hpk
          exact_mod_cast this
        · rw [if_neg h2])
    fuel m 0 ⟨rfl, le_refl _, by omega⟩ (by simp only; omega)
  rw [makeprogression, hr, hI.1]

theorem collide_body_even (tr : List (Int × Int)) :
    makeprogressionBody 0 1 2 0 ⟨[2, 1, 0], tr⟩ 1 = some (⟨[2, 0, 1], tr ++ [(1, 2)]⟩, 0) := by
  rfl

theorem collide_body_odd (tr : List (Int × Int)) :
    makeprogressionBody 0 1 2 0 ⟨[2, 0, 1], tr⟩ 1 = some (⟨[2, 1, 0], tr ++ [(1, 2)]⟩, 0) := by
  rfl

/-- With the colliding descriptor `(0, 1, 2, 0)` on three slots, the loop never leaves cursor
`1` once the array is `[2, 1, 0]` or `[2, 0, 1]`. -/
theorem collide_loop_timeout : ∀ (fuel : Nat) (tr : List (Int × Int)),
    makeprogressionLoop 0 1 2 0 3 fuel ⟨[2, 1, 0], tr⟩ 1 = Outcome.timeout ∧
    makeprogressionLoop 0 1 2 0 3 fuel ⟨[2, 0, 1], tr⟩ 1 = Outcome.timeout := by
  intro fuel
  induction fuel with
  | zero => intro tr; exact ⟨rfl, rfl⟩
  | succ fuel ih =>
    intro tr
    constructor
    · rw [makeprogressionLoop, if_pos (by decide), collide_body_even]
      exact (ih _).2
    · rw [makeprogressionLoop, if_pos (by decide), collide_body_odd]
      exact (ih _).1

theorem collide_passes : ∀ (n : Nat) (tr : List (Int × Int)),
    (∃ m, makeprogressionPasses 0 1 2 0 3 n ⟨[2, 1, 0], tr⟩ 1 = some (m, 1) ∧
      (m.a = [2, 1, 0] ∨ m.a = [2, 0, 1]) ∧ m.swaps = tr ++ List.replicate n (1, 2)) ∧
    (∃ m, makeprogressionPasses 0 1 2 0 3 n ⟨[2, 0, 1], tr⟩ 1 = some (m, 1) ∧
      (m.a = [2, 1, 0] ∨ m.a = [2, 0, 1]) ∧ m.swaps = tr ++ List.replicate n (1, 2)) := by
  intro n
  induction n with
  | zero =>
    intro tr
    exact ⟨⟨_, rfl, Or.inl rfl, by simp⟩, ⟨_, rfl, Or.inr rfl, by simp⟩⟩
  | succ n ih =>
    intro tr
    constructor
    · obtain ⟨m, h1, h2, h3⟩ := (ih (tr ++ [(1, 2)])).2
      refine ⟨m, ?_, h2, ?_⟩
      · rw [makeprogressionPasses, if_pos (by decide), collide_body_even]
        exact h1
      · rw [h3, List.replicate_succ]; simp
    · obtain ⟨m, h1, h2, h3⟩ := (ih (tr ++ [(1, 2)])).1
      refine ⟨m, ?_, h2, ?_⟩
      · rw [makeprogressionPasses, if_pos (by decide), collide_body_odd]
        exact h1
      · rw [h3, List.replicate_succ]; simp

/-! ## The sequential mode -/

theorem seqInsertLoop_eq : ∀ (n : Nat) (i : Int) (out : List Tok),
    seqInsertLoop n i out = out ++ (List.range n).map (fun (j : Nat) => Tok.ins ((j : Int) + i)) := by
  intro n
  induction n with
  | zero => intro i out; simp [seqInsertLoop]
  | succ n ih =>
    intro i out
    rw [seqInsertLoop, ih, List.range_succ_eq_map]
    simp only [List.map_cons, List.map_map, List.append_assoc, List.singleton_append]
    congr 2
    · simp
    · apply List.map_congr_left
      intro j _
      simp only [Function.comp, Nat.succ_eq_add_one, Nat.cast_add, Nat.cast_one]
      congr 1
      omega

theorem seqFindLoop_eq : ∀ (n : Nat) (i : Int) (out : List Tok),
    seqFindLoop n i out = out ++ (List.range n).map (fun (j : Nat) => Tok.fnd ((j : Int) + i)) := by
  intro n
  induction n with
  | zero => intro i out; simp [seqFindLoop]
  | succ n ih =>
    intro i out
    rw [seqFindLoop, ih, List.range_succ_eq_map]
    simp only [List.map_cons, List.map_map, List.append_assoc, List.singleton_append]
    congr 2
    · simp
    · apply List.map_congr_left
      intro j _
      simp only [Function.comp, Nat.succ_eq_add_one, Nat.cast_add, Nat.cast_one]
      congr 1
      omega

theorem sequentialLoop_eq : ∀ (n b : Nat) (out : List Tok),
    sequentialLoop n ((100 * (b + 1) : Nat) : Int) out =
      out ++ (List.range' b n).flatMap (fun c => seqBlockSpec (100 * (c + 1))) := by
  intro n
  induction n with
  | zero => intro b out; simp [sequentialLoop]
  | succ n ih =>
    intro b out
    have e : ((100 * (b + 1) : Nat) : Int) + 100 = ((100 * (b + 1 + 1) : Nat) : Int) := by
      push_cast; ring
    have h2 : (idiv ((100 * (b + 1) : Nat) : Int) 2).toNat = 100 * (b + 1) / 2 := by
      rw [idiv_of_nonneg (by omega) (by omega)]
      omega
    rw [sequentialLoop, e, ih]
    simp only [seqFindPasses, h2, seqFindLoop_eq, seqInsertLoop_eq, Int.toNat_ofNat,
      List.range'_succ, List.flatMap_cons, seqBlockSpec, List.append_assoc,
      List.singleton_append, List.cons_append, List.nil_append]

theorem sequential_generator_eq : sequential_generator [] = seqOutputSpec := by
  have := sequentialLoop_eq 20 0 []
  simp only [List.nil_append] at this
  rw [sequential_generator, seqOutputSpec, List.range_eq_range']
  exact this

/-! ## The length of the buffer is never changed -/

theorem writeA_length {a a1 : List Int} {k v : Int} (h : writeA a k v = some a1) :
    a1.length = a.length := by
  unfold writeA at h
  split at h
  · cases h; simp
  · cases h

theorem swapa_length {i j : Int} {m m1 : Mem} (h : swapa i j m = some m1) :
    m1.a.length = m.a.length := by
  unfold swapa at h
  split at h
  · cases h
  · split at h
    · cases h
    · split at h
      · cases h
      · rename_i a1 h1
        split at h
        · cases h
        · rename_i a2 h2
          cases h
          simp only
          rw [writeA_length h2, writeA_length h1]

theorem randomizeLoop_length (rand : Nat → Int) (len : Int) :
    ∀ (cnt : Nat) (i : Int) (m : Mem) (pos : Nat) (r : Mem × Nat),
      randomizeLoop rand len cnt i m pos = some r → r.1.a.length = m.a.length := by
  intro cnt
  induction cnt with
  | zero => intro i m pos r h; simp only [randomizeLoop] at h; cases h; rfl
  | succ cnt ih =>
    intro i m pos r h
    rw [randomizeLoop] at h
    split at h
    · cases h
    · rename_i m1 h1
      rw [ih _ _ _ _ h, swapa_length h1]

theorem makeprogressionBody_length {A B s inc : Int} {m : Mem} {i : Int} {r : Mem × Int}
    (h : makeprogressionBody A B s inc m i = some r) : r.1.a.length = m.a.length := by
  unfold makeprogressionBody at h
  split at h
  · cases h
  · split at h
    · cases h; rfl
    · split at h
      · split at h
        · cases h
        · rename_i m1 h1
          cases h
          exact swapa_length h1
      · cases h; rfl

theorem makeprogressionLoop_length (A B s inc len : Int) :
    ∀ (fuel : Nat) (m : Mem) (i : Int) (m1 : Mem),
      makeprogressionLoop A B s inc len fuel m i = Outcome.done m1 →
      m1.a.length = m.a.length := by
  intro fuel
  induction fuel with
  | zero =>
    intro m i m1 h
    rw [makeprogressionLoop] at h
    split at h
    · cases h
    · cases h; rfl
  | succ fuel ih =>
    intro m i m1 h
    rw [makeprogressionLoop] at h
    split at h
    · split at h
      · cases h
      · rename_i r hr
        rw [ih _ _ _ h, makeprogressionBody_length hr]
    · cases h; rfl

/-! ## Runs on buffers that agree on their first slots -/

theorem agreeOn_mono {n k : Nat} {a b : List Int} (h : AgreeOn n a b) (hk : k ≤ n) :
    AgreeOn k a b :=
  ⟨le_trans hk h.1, le_trans hk h.2.1, fun j hj => h.2.2 j (lt_of_lt_of_le hj hk)⟩

theorem agreeOn_take_eq {n : Nat} {a b : List Int} (h : AgreeOn n a b) :
    a.take n = b.take n := by
  apply List.ext_getElem?
  intro j
  by_cases hj : j < n
  · rw [List.getElem?_take_of_lt hj, List.getElem?_take_of_lt hj, h.2.2 j hj]
  · rw [List.getElem?_take_eq_none (by omega), List.getElem?_take_eq_none (by omega)]

theorem agreeOn_perm {n : Nat} {a b : List Int} (h : AgreeOn n a b) (hp : IsPermPrefix a n) :
    IsPermPrefix b n :=
  ⟨h.2.1, by rw [← agreeOn_take_eq h]; exact hp.2⟩

theorem agreeOn_swap {n k p : Nat} {a b : List Int} {x y : Int} (h : AgreeOn n a b)
    (hk : k < n) (hp : p < n) (hx : a[k]? = some x) (hy : a[p]? = some y) :
    AgreeOn n ((a.set k y).set p x) ((b.set k y).set p x) := by
  have hx2 : b[k]? = some x := by rw [← h.2.2 k hk]; exact hx
  have hy2 : b[p]? = some y := by rw [← h.2.2 p hp]; exact hy
  refine ⟨by simpa using h.1, by simpa using h.2.1, fun j hj => ?_⟩
  rw [getElem?_swapped hx hy, getElem?_swapped hx2 hy2, h.2.2 j hj]

theorem randomizeLoop_agree (rand : Nat → Int) (n : Nat) (hn : (n : Int) ≤ 2147483647) :
    ∀ (cnt i : Nat) (m m2 : Mem) (pos : Nat), i + cnt = n → IsPermPrefix m.a n →
      AgreeOn n m.a m2.a →
      ∃ r r2 pos1, randomizeLoop rand n cnt i m pos = some (r, pos1) ∧
        randomizeLoop rand n cnt i m2 pos = some (r2, pos1) ∧
        IsPermPrefix r.a n ∧ AgreeOn n r.a r2.a := by
  intro cnt
  induction cnt with
  | zero =>
    intro i m m2 pos _ hperm hag
    exact ⟨m, m2, pos, rfl, rfl, hperm, hag⟩
  | succ cnt ih =>
    intro i m m2 pos hi hperm hag
    have hin : i < n := by omega
    have hr := nextrandom2_range rand pos (A := 0) (B := (n : Int) - 1)
      (by omega) (by omega) (by omega) (by omega)
    obtain ⟨p, hp⟩ : ∃ p : Nat, (nextrandom2 rand 0 ((n : Int) - 1) pos).1 = p :=
      ⟨_, (Int.toNat_of_nonneg hr.1).symm⟩
    have hpn : p < n := by omega
    have hil : i < m.a.length := lt_of_lt_of_le hin hperm.1
    have hpl : p < m.a.length := lt_of_lt_of_le hpn hperm.1
    obtain ⟨x, hx⟩ : ∃ x, m.a[i]? = some x := ⟨m.a[i], List.getElem?_eq_getElem hil⟩
    obtain ⟨y, hy⟩ : ∃ y, m.a[p]? = some y := ⟨m.a[p], List.getElem?_eq_getElem hpl⟩
    have hx2 : m2.a[i]? = some x := by rw [← hag.2.2 i hin]; exact hx
    have hy2 : m2.a[p]? = some y := by rw [← hag.2.2 p hpn]; exact hy
    obtain ⟨r, r2, pos1, h1, h2, hp1, ha1⟩ :=
      ih (i + 1) ⟨(m.a.set i y).set p x, m.swaps ++ [((i : Int), (p : Int))]⟩
        ⟨(m2.a.set i y).set p x, m2.swaps ++ [((i : Int), (p : Int))]⟩
        (nextrandom2 rand 0 ((n : Int) - 1) pos).2 (by omega) (hperm.swap hin hpn hx hy)
        (agreeOn_swap hag hin hpn hx hy)
    refine ⟨r, r2, pos1, ?_, ?_, hp1, ha1⟩
    · rw [randomizeLoop]
      simp only [hp, swapa_of_get hx hy]
      exact_mod_cast h1
    · rw [randomizeLoop]
      simp only [hp, swapa_of_get hx2 hy2]
      exact_mod_cast h2

theorem makeprogressionBody_agree {A B s inc : Int} {n : Nat} (hp : CarvePre A B s inc n)
    {m m2 : Mem} (hperm : IsPermPrefix m.a n) (hag : AgreeOn n m.a m2.a) {i : Int}
    (h0 : 0 ≤ i) (hi : i < n) {r : Mem × Int}
    (hb : makeprogressionBody A B s inc m i = some r) :
    ∃ m3, makeprogressionBody A B s inc m2 i = some (m3, r.2) ∧ AgreeOn n r.1.a m3.a := by
  lift i to Nat using h0 with k
  have hk : k < n := by exact_mod_cast hi
  have hkl : k < m.a.length := lt_of_lt_of_le hk hperm.1
  obtain ⟨x, hx⟩ : ∃ x, m.a[k]? = some x := ⟨m.a[k], List.getElem?_eq_getElem hkl⟩
  have hx2 : m2.a[k]? = some x := by rw [← hag.2.2 k hk]; exact hx
  have hread : readA m.a (k : Int) = some x := by rw [readA_natCast]; exact hx
  have hread2 : readA m2.a (k : Int) = some x := by rw [readA_natCast]; exact hx2
  unfold makeprogressionBody at hb ⊢
  rw [hread] at hb
  rw [hread2]
  dsimp only at hb ⊢
  by_cases h1 : (k : Int) = progIndex A s inc x
  · rw [if_pos h1] at hb ⊢
    cases hb
    exact ⟨m2, rfl, hag⟩
  · rw [if_neg h1] at hb ⊢
    by_cases h2 : A ≤ x ∧ x ≤ B
    · rw [if_pos h2] at hb ⊢
      have hd := hp.hdest x h2.1 h2.2
      rw [hp.progIndex_eq h2.1 h2.2] at hb ⊢
      obtain ⟨p, hpq⟩ : ∃ p : Nat, s + inc * (x - A) = p :=
        ⟨_, (Int.toNat_of_nonneg hd.1).symm⟩
      rw [hpq] at hb hd ⊢
      have hpn : p < n := by exact_mod_cast hd.2
      have hpl : p < m.a.length := lt_of_lt_of_le hpn hperm.1
      obtain ⟨y, hy⟩ : ∃ y, m.a[p]? = some y := ⟨m.a[p], List.getElem?_eq_getElem hpl⟩
      have hy2 : m2.a[p]? = some y := by rw [← hag.2.2 p hpn]; exact hy
      rw [swapa_of_get hx hy] at hb
      rw [swapa_of_get hx2 hy2]
      cases hb
      exact ⟨_, rfl, agreeOn_swap hag hk hpn hx hy⟩
    · rw [if_neg h2] at hb ⊢
      cases hb
      exact ⟨m2, rfl, hag⟩

/-- The loop of `makeprogression` on two memories that agree on the first `n` slots: both runs
return, and the results agree on the first `n` slots. -/
theorem makeprogressionLoop_agree {A B s inc : Int} {n : Nat} (hp : CarvePre A B s inc n)
    (m0 : Mem) : ∀ (fuel : Nat) (m m2 : Mem) (i : Int), CarveInv A B s inc n m0 m i →
      AgreeOn n m.a m2.a →
      ((n : Int) - i).toNat + (unparked A B s inc m.a).card ≤ fuel →
      ∃ r r2, makeprogressionLoop A B s inc n fuel m i = Outcome.done r ∧
        makeprogressionLoop A B s inc n fuel m2 i = Outcome.done r2 ∧
        CarveInv A B s inc n m0 r n ∧ AgreeOn n r.a r2.a := by
  intro fuel
  induction fuel with
  | zero =>
    intro m m2 i hI hag hμ
    have hi : ¬ i < (n : Int) := by omega
    have : i = n := by have := hI.hi; omega
    subst this
    exact ⟨m, m2, by simp [makeprogressionLoop], by simp [makeprogressionLoop], hI, hag⟩
  | succ fuel ih =>
    intro m m2 i hI hag hμ
    by_cases hi : i < (n : Int)
    · obtain ⟨m1, i1, hb, hI1, hlt⟩ := carve_step hp m0 m i hI hi
      obtain ⟨m3, hb2, hag1⟩ := makeprogressionBody_agree hp hI.perm hag hI.lo hi hb
      obtain ⟨r, r2, h1, h2, hIr, hagr⟩ := ih m1 m3 (i1 + 1) hI1 hag1 (by omega)
      refine ⟨r, r2, ?_, ?_, hIr, hagr⟩
      · rw [makeprogressionLoop, if_pos hi, hb]; exact h1
      · rw [makeprogressionLoop, if_pos hi, hb2]; exact h2
    · have : i = n := by have := hI.hi; omega
      subst this
      exact ⟨m, m2, by simp [makeprogressionLoop], by simp [makeprogressionLoop], hI, hag⟩

theorem makeprogression_agree {A B s inc : Int} {n : Nat} (hp : CarvePre A B s inc n)
    (m m2 : Mem) (hperm : IsPermPrefix m.a n) (hag : AgreeOn n m.a m2.a) (f1 f2 : Nat)
    (hf1 : n + (B - A + 1).toNat ≤ f1) (hf2 : n + (B - A + 1).toNat ≤ f2) :
    ∃ r r2, makeprogression A B s inc n f1 m = Outcome.done r ∧
      makeprogression A B s inc n f2 m2 = Outcome.done r2 ∧
      CarveInv A B s inc n m r n ∧ AgreeOn n r.a r2.a := by
  have h0 : CarveInv A B s inc n m m 0 :=
    ⟨hperm, le_refl _, by omega, fun j x hj => by omega, fun _ _ _ => rfl,
      ⟨[], by simp, by simp, by simp⟩⟩
  have hc := unparked_card_le A B s inc m.a
  have hAB := hp.hAB
  obtain ⟨r, r2, h1, h2, hI, hagr⟩ :=
    makeprogressionLoop_agree hp m (max f1 f2) m m2 0 h0 hag
      (by have := le_max_left f1 f2; omega)
  obtain ⟨q1, g1, _⟩ := makeprogression_inv hp m hperm f1 hf1
  obtain ⟨q2, g2, _⟩ := makeprogression_inv hp m2 (agreeOn_perm hag hperm) f2 hf2
  have e1 := makeprogressionLoop_fuel_mono A B s inc n (le_max_left f1 f2) g1
  have e2 := makeprogressionLoop_fuel_mono A B s inc n (le_max_right f1 f2) g2
  rw [h1] at e1
  rw [h2] at e2
  cases e1
  cases e2
  exact ⟨r, r2, g1, g2, hI, hagr⟩

theorem initLoop_length : ∀ (cnt : Nat) (i : Int) (a a1 : List Int),
    initLoop cnt i a = some a1 → a1.length = a.length := by
  intro cnt
  induction cnt with
  | zero => intro i a a1 h; simp only [initLoop] at h; cases h; rfl
  | succ cnt ih =>
    intro i a a1 h
    rw [initLoop] at h
    split at h
    · cases h
    · rename_i a2 h2
      rw [ih _ _ _ h, writeA_length h2]

theorem carveAll_length (length : Int) (fuel : Nat) :
    ∀ (ds : List Descriptor) (m m1 : Mem),
      carveAll length fuel ds m = Outcome.done m1 → m1.a.length = m.a.length := by
  intro ds
  induction ds with
  | nil => intro m m1 h; simp only [carveAll] at h; cases h; rfl
  | cons d ds ih =>
    intro m m1 h
    rw [carveAll] at h
    cases hq : makeprogression d.A d.B d.s d.inc length fuel m with
    | done q =>
      rw [hq] at h
      simp only [Outcome.bind] at h
      rw [ih _ _ h]
      exact makeprogressionLoop_length _ _ _ _ _ _ _ _ _ hq
    | fault => rw [hq] at h; simp only [Outcome.bind] at h; cases h
    | timeout => rw [hq] at h; simp only [Outcome.bind] at h; cases h

theorem buildArray_length {rand : Nat → Int} {fuel : Nat} {length : Int} {m : Mem}
    {pos : Nat} {r : Mem × Nat} (h : buildArray rand fuel length m pos = Outcome.done r) :
    r.1.a.length = m.a.length := by
  unfold buildArray at h
  split at h
  · cases h
  · rename_i a0 h0
    split at h
    · cases h
    · rename_i q hq
      cases hc : carveAll length fuel (descriptors length) q.1 with
      | done w =>
        rw [hc] at h
        simp only [Outcome.bind] at h
        cases h
        simp only
        rw [carveAll_length _ _ _ _ _ hc, randomizeLoop_length _ _ _ _ _ _ _ hq]
        exact initLoop_length _ _ _ _ h0
      | fault => rw [hc] at h; simp only [Outcome.bind] at h; cases h
      | timeout => rw [hc] at h; simp only [Outcome.bind] at h; cases h

theorem initLoop_agree (n : Nat) (a b : List Int) (ha : n ≤ a.length) (hb : n ≤ b.length) :
    ∃ a1 b1, initLoop n 0 a = some a1 ∧ initLoop n 0 b = some b1 ∧ IsPermPrefix a1 n ∧
      AgreeOn n a1 b1 := by
  obtain ⟨a1, h1, hp1⟩ := initLoop_perm n a ha
  obtain ⟨a2, h2, l2, g2⟩ := initLoop_spec n 0 a (by omega)
  obtain ⟨b1, h3, l3, g3⟩ := initLoop_spec n 0 b (by omega)
  rw [Nat.cast_zero] at h2 h3
  rw [h1] at h2
  cases h2
  refine ⟨a1, b1, h1, h3, hp1, by omega, by omega, fun j hj => ?_⟩
  rw [g2 j, g3 j, if_pos (by omega), if_pos (by omega)]

theorem carveAll_schedule_agree {L : Nat} (hL : ∃ k : Nat, k ≤ 333 ∧ L = 1000 + 3000 * k)
    (m m2 : Mem) (hperm : IsPermPrefix m.a L) (hag : AgreeOn L m.a m2.a) (f1 f2 : Nat)
    (hf1 : 2 * L ≤ f1) (hf2 : 2 * L ≤ f2) :
    ∃ r r2, carveAll L f1 (descriptors L) m = Outcome.done r ∧
      carveAll L f2 (descriptors L) m2 = Outcome.done r2 ∧
      IsPermPrefix r.a L ∧ AgreeOn L r.a r2.a := by
  have hL2 := hL
  obtain ⟨k, hk, hLk⟩ := hL2
  obtain ⟨a1, b1, r1, s1, i1, g1⟩ :=
    makeprogression_agree (schedule_pre1 hL) m m2 hperm hag f1 f2 (by omega) (by omega)
  obtain ⟨a2, b2, r2, s2, i2, g2⟩ :=
    makeprogression_agree (schedule_pre2 hL) a1 b1 i1.perm g1 f1 f2 (by omega) (by omega)
  obtain ⟨a3, b3, r3, s3, i3, g3⟩ :=
    makeprogression_agree (schedule_pre3 hL) a2 b2 i2.perm g2 f1 f2 (by omega) (by omega)
  obtain ⟨a4, b4, r4, s4, i4, g4⟩ :=
    makeprogression_agree (schedule_pre4 hL) a3 b3 i3.perm g3 f1 f2 (by omega) (by omega)
  refine ⟨a4, b4, ?_, ?_, i4.perm, g4⟩
  · rw [descriptors_eq (by omega) (by omega)]
    simp only [carveAll, r1, r2, r3, r4, Outcome.bind]
  · rw [descriptors_eq (by omega) (by omega)]
    simp only [carveAll, s1, s2, s3, s4, Outcome.bind]

theorem buildArray_agree (rand : Nat → Int) {L : Nat}
    (hL : ∃ k : Nat, k ≤ 333 ∧ L = 1000 + 3000 * k) (m m2 : Mem) (hc1 : L ≤ m.a.length)
    (hc2 : L ≤ m2.a.length) (pos : Nat) (f1 f2 : Nat) (hf1 : 2 * L ≤ f1)
    (hf2 : 2 * L ≤ f2) :
    ∃ r r2 pb, buildArray rand f1 L m pos = Outcome.done (r, pb) ∧
      buildArray rand f2 L m2 pos = Outcome.done (r2, pb) ∧
      IsPermPrefix r.a L ∧ AgreeOn L r.a r2.a := by
  have hL2 := hL
  obtain ⟨k, hk, hLk⟩ := hL2
  obtain ⟨a1, b1, h1, h2, hp, hag⟩ := initLoop_agree L m.a m2.a hc1 hc2
  obtain ⟨q, q2, pb, g1, g2, hpq, hagq⟩ :=
    randomizeLoop_agree rand L (by omega) L 0 ⟨a1, m.swaps⟩ ⟨b1, m2.swaps⟩ pos (by omega)
      hp hag
  rw [Nat.cast_zero] at g1 g2
  obtain ⟨r, r2, c1, c2, hpr, hagr⟩ := carveAll_schedule_agree hL q q2 hpq hagq f1 f2 hf1 hf2
  refine ⟨r, r2, pb, ?_, ?_, hpr, hagr⟩
  · simp only [buildArray, Int.toNat_ofNat, h1, randomize, g1, c1, Outcome.bind]
  · simp only [buildArray, Int.toNat_ofNat, h2, randomize, g2, c2, Outcome.bind]

theorem findLoop_agree (rand : Nat → Int) (a b : List Int) (r : Nat) (h1 : 1 ≤ r)
    (h3 : (r : Int) ≤ 2147483647) (hag : AgreeOn r a b) :
    ∀ (cnt pos : Nat) (out : List Tok),
      findLoop rand r a cnt pos out = findLoop rand r b cnt pos out := by
  intro cnt
  induction cnt with
  | zero => intro pos out; rfl
  | succ cnt ih =>
    intro pos out
    have hr := nextrandom2_range rand pos (A := 0) (B := (r : Int) - 1)
      (by omega) (by omega) (by omega) (by omega)
    obtain ⟨p, hp⟩ : ∃ p : Nat, (nextrandom2 rand 0 ((r : Int) - 1) pos).1 = p :=
      ⟨_, (Int.toNat_of_nonneg hr.1).symm⟩
    have hpr : p < r := by omega
    rw [findLoop, findLoop]
    simp only [hp, readA_natCast, hag.2.2 p hpr]
    cases b[p]? with
    | none => rfl
    | some v => exact ih _ _

/-- One length-iteration of `generate` run twice, on buffers of any contents and with any
sufficient fuel, from the same draw count and the same output so far: both runs return, with
the same draw count and the same output, and neither changes the capacity of its buffer. -/
theorem generateBlock_agree (rand : Nat → Int) (last : Bool) {L : Nat}
    (hL : ∃ k : Nat, k ≤ 333 ∧ L = 1000 + 3000 * k) {subset_size : Int}
    (hs1 : 10 ≤ subset_size) (st st2 : GenState) (hc1 : L ≤ st.mem.a.length)
    (hc2 : L ≤ st2.mem.a.length) (hpos : st.pos = st2.pos) (hout : st.out = st2.out)
    (f1 f2 : Nat) (hf1 : 2 * L ≤ f1) (hf2 : 2 * L ≤ f2) :
    ∃ s1 s2, generateBlock rand last subset_size f1 L st = Outcome.done s1 ∧
      generateBlock rand last subset_size f2 L st2 = Outcome.done s2 ∧
      s1.pos = s2.pos ∧ s1.out = s2.out ∧ s1.mem.a.length = st.mem.a.length ∧
      s2.mem.a.length = st2.mem.a.length ∧ ∃ toks, s1.out = st.out ++ toks := by
  have hL2 := hL
  obtain ⟨k, hk, hLk⟩ := hL2
  obtain ⟨r, r2, pb, hb1, hb2, hpr, hag⟩ :=
    buildArray_agree rand hL st.mem st2.mem hc1 hc2 st.pos f1 f2 hf1 hf2
  rw [hpos] at hb2
  have hl1 := buildArray_length hb1
  have hl2 := buildArray_length hb2
  simp only at hl1 hl2
  obtain ⟨c, c2, p, hc, hcc, hpc, hagc, hlc, hlc2⟩ : ∃ (c c2 : Mem) (p : Nat),
      (if last then some (r, pb) else randomize rand L r pb) = some (c, p) ∧
      (if last then some (r2, pb) else randomize rand L r2 pb) = some (c2, p) ∧
      IsPermPrefix c.a L ∧ AgreeOn L c.a c2.a ∧ c.a.length = r.a.length ∧
      c2.a.length = r2.a.length := by
    cases last with
    | true => exact ⟨r, r2, pb, by simp, by simp, hpr, hag, rfl, rfl⟩
    | false =>
      obtain ⟨c, c2, p, g1, g2, hpc, hagc⟩ :=
        randomizeLoop_agree rand L (by omega) L 0 r r2 pb (by omega) hpr hag
      rw [Nat.cast_zero] at g1 g2
      refine ⟨c, c2, p, by simpa [randomize] using g1, by simpa [randomize] using g2, hpc,
        hagc, ?_, ?_⟩
      · exact randomizeLoop_length _ _ _ _ _ _ _ g1
      · exact randomizeLoop_length _ _ _ _ _ _ _ g2
  obtain ⟨rr, hr, hr1, hr2⟩ := subsetRadius_bounds hL hs1
  have hins1 := insertLoop_spec r.a L (st.out ++ [Tok.hdr L]) hpr.1
  have hins2 := insertLoop_spec r2.a L (st2.out ++ [Tok.hdr L]) hag.2.1
  rw [← agreeOn_take_eq hag, ← hout] at hins2
  obtain ⟨pos1, finds, hfind, _, _⟩ :=
    findLoop_spec rand c.a rr (by omega) (le_trans hr2 hpc.1) (by omega)
      (itersOf rr * rr).toNat p
      (st.out ++ [Tok.hdr L] ++ (r.a.take L).reverse.map Tok.ins)
  have hfind2 := hfind
  rw [findLoop_agree rand c.a c2.a rr (by omega) (by omega) (agreeOn_mono hagc hr2)] at hfind2
  have hi := imul_itersOf (r := (rr : Int)) (by omega) (by omega)
  refine ⟨⟨c, pos1, st.out ++ [Tok.hdr L] ++ (r.a.take L).reverse.map Tok.ins ++ finds⟩,
    ⟨c2, pos1, st.out ++ [Tok.hdr L] ++ (r.a.take L).reverse.map Tok.ins ++ finds⟩,
    ?_, ?_, rfl, rfl, by simp only; omega,
    by simp only; omega, ⟨Tok.hdr L :: ((r.a.take L).reverse.map Tok.ins ++ finds), ?_⟩⟩
  · unfold generateBlock
    rw [hb1]
    simp only [Outcome.bind, Int.toNat_ofNat, hins1, hc, ← hr, hi, hfind]
  · unfold generateBlock
    rw [hb2, ← hout]
    simp only [Outcome.bind, Int.toNat_ofNat, hins2, hcc, ← hr, hi, hfind2]
  · simp

/-- The loop of `generate` over the lengths `1000 + 3000 k`, run twice on buffers of any
contents with room for `1000000` slots and with any sufficient fuel, from the same draw count
and the same output so far: both runs return the same output. -/
theorem generateLoop_agree (rand : Nat → Int) (last : Bool) {subset_size : Int}
    (hs1 : 10 ≤ subset_size) (f1 f2 : Nat) (hf1 : 2000000 ≤ f1) (hf2 : 2000000 ≤ f2) :
    ∀ (n k : Nat) (st st2 : GenState), k + n ≤ 334 → 1000000 ≤ st.mem.a.length →
      1000000 ≤ st2.mem.a.length → st.pos = st2.pos → st.out = st2.out →
      ∃ s1 s2, generateLoop rand last subset_size f1 n ((1000 + 3000 * k : Nat) : Int) st =
          Outcome.done s1 ∧
        generateLoop rand last subset_size f2 n ((1000 + 3000 * k : Nat) : Int) st2 =
          Outcome.done s2 ∧
        s1.out = s2.out ∧ ∃ toks, s1.out = st.out ++ toks := by
  intro n
  induction n with
  | zero =>
    intro k st st2 _ _ _ _ hout
    exact ⟨st, st2, rfl, rfl, hout, [], by simp⟩
  | succ n ih =>
    intro k st st2 hk hc1 hc2 hpos hout
    obtain ⟨s1, s2, g1, g2, hp, ho, hl1, hl2, t1, ht1⟩ :=
      generateBlock_agree rand last (L := 1000 + 3000 * k) ⟨k, by omega, rfl⟩ hs1 st st2
        (by omega) (by omega) hpos hout f1 f2 (by omega) (by omega)
    obtain ⟨w1, w2, e1, e2, hw, t2, ht2⟩ :=
      ih (k + 1) s1 s2 (by omega) (by omega) (by omega) hp ho
    have e : ((1000 + 3000 * k : Nat) : Int) + 3000 = ((1000 + 3000 * (k + 1) : Nat) : Int) := by
      push_cast; ring
    refine ⟨w1, w2, ?_, ?_, hw, t1 ++ t2, ?_⟩
    · rw [generateLoop, g1, e]; exact e1
    · rw [generateLoop, g2, e]; exact e2
    · rw [ht2, ht1, List.append_assoc]

/-- The block of a length of the schedule, with its layout and the capacity of the buffer it
leaves. -/
theorem generateBlock_layout (rand : Nat → Int) (last : Bool) {L : Nat}
    (hL : ∃ k : Nat, k ≤ 333 ∧ L = 1000 + 3000 * k) {subset_size : Int}
    (hs1 : 10 ≤ subset_size) (st : GenState) (hcap : L ≤ st.mem.a.length) (fuel : Nat)
    (hf : 2 * L ≤ fuel) :
    ∃ (mb : Mem) (pb : Nat) (s1 : GenState) (finds : List Tok),
      buildArray rand fuel L st.mem st.pos = Outcome.done (mb, pb) ∧ IsPermPrefix mb.a L ∧
      generateBlock rand last subset_size fuel L st = Outcome.done s1 ∧
      s1.out = st.out ++ Tok.hdr L :: ((mb.a.take L).reverse.map Tok.ins ++ finds) ∧
      (finds.length : Int) =
        itersOf (subsetRadius subset_size L) * subsetRadius subset_size L ∧
      (∀ t ∈ finds, ∃ v, t = Tok.fnd v) ∧ s1.mem.a.length = st.mem.a.length := by
  obtain ⟨mb, pb, c, r, pos1, finds, hb, hpb, _, _, hr, hr1, _, hg, hlen, hall⟩ :=
    generateBlock_schedule rand last hL hs1 st hcap fuel hf
  obtain ⟨s1, s2, g1, _, _, _, hl, _, _⟩ :=
    generateBlock_agree rand last hL hs1 st st hcap hcap rfl rfl fuel fuel hf hf
  rw [hg] at g1
  cases g1
  refine ⟨mb, pb, _, finds, hb, hpb, hg, rfl, ?_, fun t ht => ?_, hl⟩
  · rw [hlen, ← hr]
    have : (0 : Int) ≤ itersOf r * r := by
      unfold itersOf
      split_ifs <;> omega
    omega
  · obtain ⟨_, v, _, _, hv⟩ := hall t ht
    exact ⟨v, hv⟩

theorem generateLoop_done (rand : Nat → Int) (last : Bool) {subset_size : Int}
    (hs1 : 10 ≤ subset_size) (fuel : Nat) (hf : 2000000 ≤ fuel) (n k : Nat) (st : GenState)
    (hk : k + n ≤ 334) (hcap : 1000000 ≤ st.mem.a.length) :
    ∃ s1 toks, generateLoop rand last subset_size fuel n ((1000 + 3000 * k : Nat) : Int) st =
        Outcome.done s1 ∧ s1.out = st.out ++ toks := by
  obtain ⟨s1, _, h1, _, _, toks, ht⟩ :=
    generateLoop_agree rand last hs1 fuel fuel hf hf n k st st hk hcap hcap rfl rfl
  exact ⟨s1, toks, h1, ht⟩

theorem outcome_bind_done {α β : Type} (x : α) (f : α → Outcome β) :
    (Outcome.done x).bind f = f x := rfl

theorem generateLoop_succ (rand : Nat → Int) (last : Bool) (subset_size : Int) (fuel n : Nat)
    (length : Int) (st : GenState) :
    generateLoop rand last subset_size fuel (n + 1) length st =
      (generateBlock rand last subset_size fuel length st).bind
        (generateLoop rand last subset_size fuel n (length + 3000)) := rfl

/-- Two iterations of the loop of `generate` followed by the remaining ones. -/
theorem generateLoop_two_blocks (rand : Nat → Int) (last : Bool) (subset_size : Int)
    (fuel n : Nat) (length : Int) (st s1 s2 s3 : GenState)
    (g1 : generateBlock rand last subset_size fuel length st = Outcome.done s1)
    (g2 : generateBlock rand last subset_size fuel (length + 3000) s1 = Outcome.done s2)
    (g3 : generateLoop rand last subset_size fuel n (length + 3000 + 3000) s2 =
      Outcome.done s3) :
    generateLoop rand last subset_size fuel (n + 2) length st = Outcome.done s3 := by
  rw [generateLoop_succ, g1, outcome_bind_done, generateLoop_succ, g2, outcome_bind_done, g3]

/-- In the random mode with an accepted `subset_size`, `generate` is its loop over the lengths,
run on the stream of the seed. -/
theorem generate_random_eq (gen : Int → Nat → Int) (fl : Flags) (hseq : fl.sequential = false)
    (hs1 : 10 ≤ fl.subset_size) (hs2 : fl.subset_size ≤ 1000000) (fuel : Nat) (m : Mem) :
    generate gen fl fuel m =
      (generateLoop (gen (if fl.student_id < 0 then 42 else fl.student_id)) fl.last
        fl.subset_size fuel 334 1000 ⟨m, 0, []⟩).bind
        fun st => Outcome.done
          ⟨0, st.out, if fl.student_id < 0 then [Diag.studentIdDefault] else []⟩ := by
  unfold generate
  rw [hseq, if_neg (by simp; omega), if_neg (by simp)]
  simp only
  rw [if_neg (by omega)]

/-- The random mode of `generate` with an accepted `subset_size`: the call returns `0`, and its
output begins with the block of length `1000`, followed by the line `# 4000`. -/
theorem generate_first_block (gen : Int → Nat → Int) (fl : Flags) (hseq : fl.sequential = false)
    (hs1 : 10 ≤ fl.subset_size) (hs2 : fl.subset_size ≤ 1000000) (m : Mem)
    (hcap : 1000000 ≤ m.a.length) (fuel : Nat) (hf : 2000000 ≤ fuel) :
    ∃ (e : Exit) (inserts finds rest : List Tok),
      generate gen fl fuel m = Outcome.done e ∧ e.code = 0 ∧
      e.out = Tok.hdr 1000 :: (inserts ++ (finds ++ Tok.hdr 4000 :: rest)) ∧
      inserts.length = 1000 ∧ (∀ t ∈ inserts, ∃ v, t = Tok.ins v) ∧
      (finds.length : Int) =
        itersOf (subsetRadius fl.subset_size 1000) * subsetRadius fl.subset_size 1000 ∧
      (∀ t ∈ finds, ∃ v, t = Tok.fnd v) := by
  obtain ⟨mb, pb, s1, finds, _, hpb, g1, ho1, hlen, hall, hl1⟩ :=
    generateBlock_layout (gen (if fl.student_id < 0 then 42 else fl.student_id)) fl.last
      (L := 1000) ⟨0, by omega, rfl⟩ hs1 ⟨m, 0, []⟩
      (le_trans (by omega : 1000 ≤ 1000000) hcap) fuel (by omega)
  simp only at hl1 ho1
  obtain ⟨mb2, pb2, s2, finds2, _, _, g2, ho2, _, _, hl2⟩ :=
    generateBlock_layout (gen (if fl.student_id < 0 then 42 else fl.student_id)) fl.last
      (L := 4000) ⟨1, by omega, rfl⟩ hs1 s1 (by omega) fuel (by omega)
  obtain ⟨s3, toks, g3, ho3⟩ :=
    generateLoop_done (gen (if fl.student_id < 0 then 42 else fl.student_id)) fl.last hs1
      fuel hf 332 2 s2 (by omega) (by omega)
  refine ⟨⟨0, s3.out, if fl.student_id < 0 then [Diag.studentIdDefault] else []⟩,
    (mb.a.take 1000).reverse.map Tok.ins, finds,
    (mb2.a.take 4000).reverse.map Tok.ins ++ finds2 ++ toks, ?_, rfl, ?_, ?_, ?_,
    by exact_mod_cast hlen, hall⟩
  · have e1 : ((1000 : Nat) : Int) + 3000 = ((4000 : Nat) : Int) := by norm_num
    have e2 : ((1000 : Nat) : Int) + 3000 + 3000 = ((1000 + 3000 * 2 : Nat) : Int) := by
      norm_num
    rw [← e1] at g2
    rw [← e2] at g3
    have hloop := generateLoop_two_blocks _ _ _ _ 332 _ _ _ _ _ g1 g2 g3
    have e0 : ((1000 : Nat) : Int) = 1000 := by norm_num
    rw [e0] at hloop
    rw [generate_random_eq gen fl hseq hs1 hs2, hloop, outcome_bind_done]
  · simp only
    rw [ho3, ho2, ho1]
    simp
  · simp only [List.length_map, List.length_reverse, List.length_take]
    have := hpb.1
    omega
  · intro t ht
    simp only [List.mem_map] at ht
    obtain ⟨v, _, hv⟩ := ht
    exact ⟨v, hv.symm⟩

/-! ## The claims -/

/-- C1: postcondition of `makeprogression`. For every `len`, every array whose first `len`
slots are a permutation of `0, ..., len - 1`, and every descriptor with `0 ≤ A ≤ B ≤ len - 1`,
`inc ≠ 0` and all indices `s + inc*(v - A)`, `v` in `[A, B]`, inside `[0, len)`:
`makeprogression(A, B, s, inc, len)` returns (given fuel for `len + (B - A + 1)` passes of its
loop), `a[s + inc*(v - A)] = v` holds afterwards for every `v` in `[A, B]`, and no other amount
of fuel makes it return anything else. -/
theorem C1_makeprogression_postcondition (len : Nat) (a : List Int) (tr : List (Int × Int))
    (A B s inc : Int) (hlen : (len : Int) ≤ 2147483647) (hperm : IsPermPrefix a len)
    (hA : 0 ≤ A) (hAB : A ≤ B) (hB : B ≤ (len : Int) - 1) (hinc : inc ≠ 0)
    (hdest : ∀ v, A ≤ v → v ≤ B → 0 ≤ s + inc * (v - A) ∧ s + inc * (v - A) < len)
    (fuel : Nat) (hf : len + (B - A + 1).toNat ≤ fuel) :
    ∃ m1, makeprogression A B s inc len fuel ⟨a, tr⟩ = Outcome.done m1 ∧
      (∀ v, A ≤ v → v ≤ B → readA m1.a (s + inc * (v - A)) = some v) ∧
      ∀ fuel2 m2, makeprogression A B s inc len fuel2 ⟨a, tr⟩ = Outcome.done m2 → m2 = m1 := by
  have hp : CarvePre A B s inc len := ⟨hA, hAB, hB, hinc, hdest, hlen⟩
  obtain ⟨m1, h1, hI⟩ := makeprogression_inv hp ⟨a, tr⟩ hperm fuel hf
  refine ⟨m1, h1, fun v hv1 hv2 => hI.post hp hv1 hv2, fun fuel2 m2 h2 => ?_⟩
  have e1 := makeprogressionLoop_fuel_mono A B s inc len (le_max_left fuel fuel2) h1
  have e2 := makeprogressionLoop_fuel_mono A B s inc len (le_max_right fuel fuel2) h2
  rw [e1] at e2
  exact (Outcome.done.inj e2).symm

/-- C1 at `a = [2, 0, 3, 1]`, carving the values `1, 2` to the indices `3, 2`. -/
theorem C1_makeprogression_postcondition_witness :
    ∃ m1, makeprogression 1 2 3 (-1) (4 : Nat) 6 ⟨[2, 0, 3, 1], []⟩ = Outcome.done m1 ∧
      (∀ v, (1 : Int) ≤ v → v ≤ 2 → readA m1.a (3 + -1 * (v - 1)) = some v) ∧
      ∀ fuel2 m2,
        makeprogression 1 2 3 (-1) (4 : Nat) fuel2 ⟨[2, 0, 3, 1], []⟩ = Outcome.done m2 →
          m2 = m1 :=
  C1_makeprogression_postcondition 4 [2, 0, 3, 1] [] 1 2 3 (-1) (by decide) (by decide)
    (by decide) (by decide) (by decide) (by decide) (fun v h1 h2 => by omega) 6 (by decide)

/-- C2 (amended): for every length `L = 1000 + 3000 k` of the schedule and every stream of
`rand()` values, after the identity initialisation, `randomize(L)` and the four carves
`d1, d2, d3, d4` in order: the slot `s + inc*(v - A)` holds `v` for every `v` of the second and
of the fourth descriptor, for every `v` of the first descriptor other than its first value
`A = L / 4` (whose slot `L / 10` is the slot of `L / 2` in the second), and for every `v` of
the third descriptor whose slot is not the slot of a value of the fourth. -/
theorem C2_progressions_after_four_carves (rand : Nat → Int) (k : Nat) (hk : k ≤ 333)
    (a : List Int) (tr : List (Int × Int)) (pos : Nat)
    (hcap : 1000 + 3000 * k ≤ a.length) (fuel : Nat) (hf : 2 * (1000 + 3000 * k) ≤ fuel)
    (d1 d2 d3 d4 : Descriptor)
    (hd : descriptors ((1000 + 3000 * k : Nat) : Int) = [d1, d2, d3, d4]) :
    ∃ mb pb,
      buildArray rand fuel ((1000 + 3000 * k : Nat) : Int) ⟨a, tr⟩ pos = Outcome.done (mb, pb) ∧
      (∀ v, d2.A ≤ v → v ≤ d2.B → readA mb.a (d2.s + d2.inc * (v - d2.A)) = some v) ∧
      (∀ v, d4.A ≤ v → v ≤ d4.B → readA mb.a (d4.s + d4.inc * (v - d4.A)) = some v) ∧
      (∀ v, d1.A < v → v ≤ d1.B → readA mb.a (d1.s + d1.inc * (v - d1.A)) = some v) ∧
      (∀ v, d3.A ≤ v → v ≤ d3.B →
        (∀ w, d4.A ≤ w → w ≤ d4.B →
          d4.s + d4.inc * (w - d4.A) ≠ d3.s + d3.inc * (v - d3.A)) →
        readA mb.a (d3.s + d3.inc * (v - d3.A)) = some v) := by
  obtain ⟨mb, pb, hb, _, h1, h2, h3, h4⟩ :=
    buildArray_progressions rand ⟨k, hk, rfl⟩ ⟨a, tr⟩ hcap pos fuel hf
  rw [descriptors_eq (by omega) (by omega)] at hd
  simp only [List.cons.injEq, and_true] at hd
  obtain ⟨rfl, rfl, rfl, rfl⟩ := hd
  exact ⟨mb, pb, hb, h2, h4, h1, h3⟩

/-- C2 (amended) at `L = 1000` with a constant stream of draws and a zeroed buffer. -/
theorem C2_progressions_after_four_carves_witness :
    ∃ mb pb,
      buildArray (fun _ => 7) 2000 ((1000 + 3000 * 0 : Nat) : Int)
        ⟨List.replicate 1000 0, []⟩ 0 = Outcome.done (mb, pb) ∧
      (∀ v, (500 : Int) ≤ v → v ≤ 550 → readA mb.a (100 + -1 * (v - 500)) = some v) ∧
      (∀ v, (850 : Int) ≤ v → v ≤ 900 → readA mb.a (400 + 5 * (v - 850)) = some v) ∧
      (∀ v, (250 : Int) < v → v ≤ 300 → readA mb.a (100 + 1 * (v - 250)) = some v) ∧
      (∀ v, (750 : Int) ≤ v → v ≤ 800 →
        (∀ w, (850 : Int) ≤ w → w ≤ 900 → 400 + 5 * (w - 850) ≠ 500 + -4 * (v - 750)) →
        readA mb.a (500 + -4 * (v - 750)) = some v) :=
  C2_progressions_after_four_carves (fun _ => 7) 0 (by decide) (List.replicate 1000 0) [] 0
    (List.length_replicate 1000 (0 : Int)).ge 2000 (by decide)
    ⟨250, 300, 100, 1⟩ ⟨500, 550, 100, -1⟩ ⟨750, 800, 500, -4⟩ ⟨850, 900, 400, 5⟩ (by decide)

/-- C2 as stated fails: at `L = 1000`, with the constant stream `0` and a zeroed buffer, the
four carves return and the first descriptor `(250, 300, 100, 1)` has the value `v = 250` whose
slot `100` does not hold `250` (it holds `500`, parked there by the second carve). -/
theorem C2_first_progression_overwritten :
    ∃ mb pb,
      buildArray (fun _ => 0) 2000 1000 ⟨List.replicate 1000 0, []⟩ 0 = Outcome.done (mb, pb) ∧
      ∃ d ∈ descriptors 1000, ∃ v, d.A ≤ v ∧ v ≤ d.B ∧
        readA mb.a (d.s + d.inc * (v - d.A)) ≠ some v := by
  obtain ⟨mb, pb, hb, _, _, h2, _, _⟩ :=
    buildArray_progressions (fun _ => 0) (L := 1000) ⟨0, by decide, rfl⟩
      ⟨List.replicate 1000 0, []⟩ (List.length_replicate 1000 (0 : Int)).ge 0 2000 (by decide)
  have h := h2 500 (by decide) (by decide)
  have e : ((1000 : Nat) : Int) / 10 + -1 * (500 - ((1000 : Nat) : Int) / 2) = 100 := by decide
  rw [e] at h
  refine ⟨mb, pb, hb, ⟨250, 300, 100, 1⟩, by decide, 250, by decide, by decide, ?_⟩
  have e2 : (100 : Int) + 1 * (250 - 250) = 100 := by decide
  show readA mb.a (100 + 1 * (250 - 250)) ≠ some 250
  rw [e2, h]
  decide

/-- C3: for every length `L = 1000 + 3000 k` of the schedule (`k ≤ 333`), each of the four
descriptors that `generate` passes to `makeprogression` satisfies `0 ≤ A ≤ B ≤ L - 1`, has all
its indices `s + inc*(v - A)`, `v` in `[A, B]`, in `[0, L)`, and gives different values of
`[A, B]` different indices; and the four carves, run on a permutation with fuel for `2 L`
passes each, return with every swap they made having both indices in `[0, L)`. -/
theorem C3_descriptors_within_bounds (k : Nat) (hk : k ≤ 333) (a : List Int)
    (tr : List (Int × Int)) (fuel : Nat) (hperm : IsPermPrefix a (1000 + 3000 * k))
    (hf : 2 * (1000 + 3000 * k) ≤ fuel) :
    (∀ d ∈ descriptors ((1000 + 3000 * k : Nat) : Int),
      0 ≤ d.A ∧ d.A ≤ d.B ∧ d.B ≤ ((1000 + 3000 * k : Nat) : Int) - 1 ∧
      (∀ v, d.A ≤ v → v ≤ d.B →
        0 ≤ d.s + d.inc * (v - d.A) ∧ d.s + d.inc * (v - d.A) < ((1000 + 3000 * k : Nat) : Int)) ∧
      (∀ v w, d.A ≤ v → v ≤ d.B → d.A ≤ w → w ≤ d.B →
        d.s + d.inc * (v - d.A) = d.s + d.inc * (w - d.A) → v = w)) ∧
    ∃ m4 ext, carveAll ((1000 + 3000 * k : Nat) : Int) fuel
        (descriptors ((1000 + 3000 * k : Nat) : Int)) ⟨a, tr⟩ = Outcome.done m4 ∧
      m4.swaps = tr ++ ext ∧
      ∀ q ∈ ext, 0 ≤ q.1 ∧ q.1 < ((1000 + 3000 * k : Nat) : Int) ∧
        0 ≤ q.2 ∧ q.2 < ((1000 + 3000 * k : Nat) : Int) := by
  have hL : ∃ j : Nat, j ≤ 333 ∧ 1000 + 3000 * k = 1000 + 3000 * j := ⟨k, hk, rfl⟩
  have p1 := schedule_pre1 hL
  have p2 := schedule_pre2 hL
  have p3 := schedule_pre3 hL
  have p4 := schedule_pre4 hL
  constructor
  · intro d hd
    rw [descriptors_eq (by omega) (by omega)] at hd
    simp only [List.mem_cons, List.mem_singleton, List.not_mem_nil, or_false] at hd
    rcases hd with rfl | rfl | rfl | rfl
    · exact ⟨p1.hA, p1.hAB, p1.hB, p1.hdest, fun v w _ _ _ _ e => p1.dest_inj e⟩
    · exact ⟨p2.hA, p2.hAB, p2.hB, p2.hdest, fun v w _ _ _ _ e => p2.dest_inj e⟩
    · exact ⟨p3.hA, p3.hAB, p3.hB, p3.hdest, fun v w _ _ _ _ e => p3.dest_inj e⟩
    · exact ⟨p4.hA, p4.hAB, p4.hB, p4.hdest, fun v w _ _ _ _ e => p4.dest_inj e⟩
  · obtain ⟨m1, m2, m3, m4, hc, i1, i2, i3, i4⟩ :=
      carveAll_schedule hL ⟨a, tr⟩ hperm fuel hf
    obtain ⟨e1, h1, _, q1⟩ := i1.swaps_bound p1
    obtain ⟨e2, h2, _, q2⟩ := i2.swaps_bound p2
    obtain ⟨e3, h3, _, q3⟩ := i3.swaps_bound p3
    obtain ⟨e4, h4, _, q4⟩ := i4.swaps_bound p4
    refine ⟨m4, e1 ++ (e2 ++ (e3 ++ e4)), hc, ?_, ?_⟩
    · rw [h4, h3, h2, h1]; simp
    · intro q hq
      simp only [List.mem_append] at hq
      rcases hq with h | h | h | h
      · exact q1 q h
      · exact q2 q h
      · exact q3 q h
      · exact q4 q h

/-- C3 at the first length of the schedule, `L = 1000`, on the identity permutation. -/
theorem C3_descriptors_within_bounds_witness :
    (∀ d ∈ descriptors ((1000 + 3000 * 0 : Nat) : Int),
      0 ≤ d.A ∧ d.A ≤ d.B ∧ d.B ≤ ((1000 + 3000 * 0 : Nat) : Int) - 1 ∧
      (∀ v, d.A ≤ v → v ≤ d.B →
        0 ≤ d.s + d.inc * (v - d.A) ∧ d.s + d.inc * (v - d.A) < ((1000 + 3000 * 0 : Nat) : Int)) ∧
      (∀ v w, d.A ≤ v → v ≤ d.B → d.A ≤ w → w ≤ d.B →
        d.s + d.inc * (v - d.A) = d.s + d.inc * (w - d.A) → v = w)) ∧
    ∃ m4 ext, carveAll ((1000 + 3000 * 0 : Nat) : Int) 2000
        (descriptors ((1000 + 3000 * 0 : Nat) : Int))
        ⟨(List.range (1000 + 3000 * 0)).map Int.ofNat, []⟩ = Outcome.done m4 ∧
      m4.swaps = [] ++ ext ∧
      ∀ q ∈ ext, 0 ≤ q.1 ∧ q.1 < ((1000 + 3000 * 0 : Nat) : Int) ∧
        0 ≤ q.2 ∧ q.2 < ((1000 + 3000 * 0 : Nat) : Int) :=
  C3_descriptors_within_bounds 0 (by decide) ((List.range (1000 + 3000 * 0)).map Int.ofNat) [] 2000
    (isPermPrefix_identity (1000 + 3000 * 0)) (by decide)

/-- C4: `randomize` preserves the permutation invariant. For every `len ≥ 0`, every stream of
`rand()` values (negative ones included) and every array whose first `len` slots are a
permutation of `0, ..., len - 1`: `randomize(len)` returns without a fault, the first `len`
slots are again a permutation of `0, ..., len - 1`, and both indices of every swap it made lie
in `[0, len - 1]`. -/
theorem C4_randomize_preserves_permutation (rand : Nat → Int) (len : Nat) (a : List Int)
    (tr : List (Int × Int)) (pos : Nat) (hlen : (len : Int) ≤ 2147483647)
    (hperm : IsPermPrefix a len) :
    ∃ m1 pos1 ext, randomize rand len ⟨a, tr⟩ pos = some (m1, pos1) ∧
      IsPermPrefix m1.a len ∧ m1.swaps = tr ++ ext ∧
      ∀ q ∈ ext, 0 ≤ q.1 ∧ q.1 ≤ (len : Int) - 1 ∧ 0 ≤ q.2 ∧ q.2 ≤ (len : Int) - 1 := by
  obtain ⟨m1, pos1, hr, hp, ext, he, _, hq⟩ := randomize_spec rand len hlen ⟨a, tr⟩ pos hperm
  refine ⟨m1, pos1, ext, hr, hp, he, fun q hm => ?_⟩
  have := hq q hm
  omega

/-- C4 at `a = [1, 2, 0, 3]` with a stream of negative draws. -/
theorem C4_randomize_preserves_permutation_witness :
    ∃ m1 pos1 ext, randomize (fun n => -(7919 * (n : Int) + 13)) (4 : Nat)
        ⟨[1, 2, 0, 3], []⟩ 0 = some (m1, pos1) ∧
      IsPermPrefix m1.a 4 ∧ m1.swaps = [] ++ ext ∧
      ∀ q ∈ ext, 0 ≤ q.1 ∧ q.1 ≤ ((4 : Nat) : Int) - 1 ∧ 0 ≤ q.2 ∧ q.2 ≤ ((4 : Nat) : Int) - 1 :=
  C4_randomize_preserves_permutation (fun n => -(7919 * (n : Int) + 13)) 4 [1, 2, 0, 3] [] 0
    (by decide) (by decide)

/-- C5: for every stream of `rand()` values and every length `L = 1000 + 3000 k` of the
schedule, the array after the identity initialisation, `randomize(L)` and the four carves is a
permutation of `0, ..., L - 1`, and the block printed for `L` is `# L`, then `L` tokens
`I <value>` whose values are a permutation of `0, ..., L - 1` (every key once, none missing),
then only `F` tokens. -/
theorem C5_block_inserts_permutation (rand : Nat → Int) (last : Bool) (k : Nat)
    (hk : k ≤ 333) (subset_size : Int) (hs1 : 10 ≤ subset_size)
    (_hs2 : subset_size ≤ 1000000) (a : List Int) (tr : List (Int × Int)) (pos : Nat)
    (out : List Tok) (hcap : 1000 + 3000 * k ≤ a.length) (fuel : Nat)
    (hf : 2 * (1000 + 3000 * k) ≤ fuel) :
    ∃ mb pb st1 vals finds,
      buildArray rand fuel ((1000 + 3000 * k : Nat) : Int) ⟨a, tr⟩ pos = Outcome.done (mb, pb) ∧
      IsPermPrefix mb.a (1000 + 3000 * k) ∧
      generateBlock rand last subset_size fuel ((1000 + 3000 * k : Nat) : Int)
        ⟨⟨a, tr⟩, pos, out⟩ = Outcome.done st1 ∧
      st1.out = out ++ Tok.hdr ((1000 + 3000 * k : Nat) : Int) ::
        (vals.map Tok.ins ++ finds) ∧
      vals = (mb.a.take (1000 + 3000 * k)).reverse ∧
      vals.Perm ((List.range (1000 + 3000 * k)).map Int.ofNat) ∧
      ∀ t ∈ finds, ∃ v, t = Tok.fnd v := by
  obtain ⟨mb, pb, c, r, pos1, finds, hb, hpb, _, _, _, _, _, hg, _, hall⟩ :=
    generateBlock_schedule rand last ⟨k, hk, rfl⟩ hs1 ⟨⟨a, tr⟩, pos, out⟩ hcap fuel hf
  refine ⟨mb, pb, _, _, finds, hb, hpb, hg, rfl, rfl,
    (List.reverse_perm _).trans hpb.2, fun t ht => ?_⟩
  obtain ⟨_, v, _, _, hv⟩ := hall t ht
  exact ⟨v, hv⟩

/-- C5 at `L = 1000`, `subset_size = 10`, a constant stream of draws and a zeroed buffer. -/
theorem C5_block_inserts_permutation_witness :
    ∃ mb pb st1 vals finds,
      buildArray (fun _ => 7) 2000 ((1000 + 3000 * 0 : Nat) : Int)
        ⟨List.replicate 1000 0, []⟩ 0 = Outcome.done (mb, pb) ∧
      IsPermPrefix mb.a (1000 + 3000 * 0) ∧
      generateBlock (fun _ => 7) false 10 2000 ((1000 + 3000 * 0 : Nat) : Int)
        ⟨⟨List.replicate 1000 0, []⟩, 0, []⟩ = Outcome.done st1 ∧
      st1.out = [] ++ Tok.hdr ((1000 + 3000 * 0 : Nat) : Int) ::
        (vals.map Tok.ins ++ finds) ∧
      vals = (mb.a.take (1000 + 3000 * 0)).reverse ∧
      vals.Perm ((List.range (1000 + 3000 * 0)).map Int.ofNat) ∧
      ∀ t ∈ finds, ∃ v, t = Tok.fnd v :=
  C5_block_inserts_permutation (fun _ => 7) false 0 (by decide) 10 (by decide) (by decide)
    (List.replicate 1000 0) [] 0 [] (List.length_replicate 1000 (0 : Int)).ge 2000 (by decide)

/-- C6: termination of `makeprogression` under its precondition. With fuel for
`len + (B - A + 1)` passes through the loop body the scan finishes (no fault, no timeout), and
the swaps it performed number at most `B - A + 1`. -/
theorem C6_makeprogression_terminates (len : Nat) (a : List Int) (tr : List (Int × Int))
    (A B s inc : Int) (hlen : (len : Int) ≤ 2147483647) (hperm : IsPermPrefix a len)
    (hA : 0 ≤ A) (hAB : A ≤ B) (hB : B ≤ (len : Int) - 1) (hinc : inc ≠ 0)
    (hdest : ∀ v, A ≤ v → v ≤ B → 0 ≤ s + inc * (v - A) ∧ s + inc * (v - A) < len)
    (fuel : Nat) (hf : len + (B - A + 1).toNat ≤ fuel) :
    ∃ m1 ext, makeprogression A B s inc len fuel ⟨a, tr⟩ = Outcome.done m1 ∧
      m1.swaps = tr ++ ext ∧ (ext.length : Int) ≤ B - A + 1 := by
  have hp : CarvePre A B s inc len := ⟨hA, hAB, hB, hinc, hdest, hlen⟩
  obtain ⟨m1, h1, hI⟩ := makeprogression_inv hp ⟨a, tr⟩ hperm fuel hf
  obtain ⟨ext, he, hl, _⟩ := hI.swaps_bound hp
  exact ⟨m1, ext, h1, he, hl⟩

/-- C6 at `a = [3, 2, 1, 0]`, carving the values `0, 1, 2` to the indices `0, 1, 2`. -/
theorem C6_makeprogression_terminates_witness :
    ∃ m1 ext, makeprogression 0 2 0 1 (4 : Nat) 7 ⟨[3, 2, 1, 0], []⟩ = Outcome.done m1 ∧
      m1.swaps = [] ++ ext ∧ (ext.length : Int) ≤ 2 - 0 + 1 :=
  C6_makeprogression_terminates 4 [3, 2, 1, 0] [] 0 2 0 1 (by decide) (by decide)
    (by decide) (by decide) (by decide) (by decide) (fun v h1 h2 => by omega) 7 (by decide)

/-- C7: for all `int`s `A < B` with `B - A + 1` representable and every stream of `rand()`
values, `nextrandom2(A, B)` takes `offset = n % (B - A + 1)` (truncating remainder) of the value
`n` returned by `nextrandom()`, returns `A - offset` when `offset < 0` and `A + offset`
otherwise, and its result lies in `[A, B]`. -/
theorem C7_nextrandom2_offset (rand : Nat → Int) (pos : Nat) (A B : Int)
    (hA : -2147483648 ≤ A) (hB : B ≤ 2147483647) (hAB : A < B)
    (hrep : B - A + 1 ≤ 2147483647) :
    nextrandom2 rand A B pos =
      (if Int.tmod (nextrandom rand pos).1 (B - A + 1) < 0
        then A - Int.tmod (nextrandom rand pos).1 (B - A + 1)
        else A + Int.tmod (nextrandom rand pos).1 (B - A + 1), pos + 3) ∧
    A ≤ (nextrandom2 rand A B pos).1 ∧ (nextrandom2 rand A B pos).1 ≤ B :=
  ⟨nextrandom2_eq rand pos hA hB hAB hrep,
    nextrandom2_range rand pos hA hB (le_of_lt hAB) hrep⟩

/-- C7 at `A = 3`, `B = 9` with draws `-13, 5, -20`, for which `nextrandom()` is `-85`. -/
theorem C7_nextrandom2_offset_witness :
    nextrandom2 (fun n => if n = 0 then -13 else if n = 1 then 5 else -20) 3 9 0 =
      (if Int.tmod (nextrandom (fun n => if n = 0 then -13 else if n = 1 then 5 else -20) 0).1
          (9 - 3 + 1) < 0
        then 3 - Int.tmod
          (nextrandom (fun n => if n = 0 then -13 else if n = 1 then 5 else -20) 0).1 (9 - 3 + 1)
        else 3 + Int.tmod
          (nextrandom (fun n => if n = 0 then -13 else if n = 1 then 5 else -20) 0).1 (9 - 3 + 1),
        0 + 3) ∧
    3 ≤ (nextrandom2 (fun n => if n = 0 then -13 else if n = 1 then 5 else -20) 3 9 0).1 ∧
    (nextrandom2 (fun n => if n = 0 then -13 else if n = 1 then 5 else -20) 3 9 0).1 ≤ 9 :=
  C7_nextrandom2_offset (fun n => if n = 0 then -13 else if n = 1 then 5 else -20) 0 3 9
    (by decide) (by decide) (by decide) (by decide)

/-- C8: for every accepted `subset_size` in `[10, 1000000]`, every length
`L = 1000 + 3000 k` of the schedule and every stream of `rand()` values, with
`r = min(subset_size, L)`: the block returns without a fault, and each `F <value>` token it
prints carries the value of a slot `j` with `0 ≤ j ≤ r - 1 < L` of the array `c.1` that the
finds are sampled from (the carved array under `-l`, its second shuffle otherwise). -/
theorem C8_find_values_from_window (rand : Nat → Int) (last : Bool) (k : Nat)
    (hk : k ≤ 333) (subset_size : Int) (hs1 : 10 ≤ subset_size)
    (_hs2 : subset_size ≤ 1000000) (a : List Int) (tr : List (Int × Int)) (pos : Nat)
    (out : List Tok) (hcap : 1000 + 3000 * k ≤ a.length) (fuel : Nat)
    (hf : 2 * (1000 + 3000 * k) ≤ fuel) :
    ∃ mb pb c st1 finds,
      buildArray rand fuel ((1000 + 3000 * k : Nat) : Int) ⟨a, tr⟩ pos = Outcome.done (mb, pb) ∧
      (if last then some (mb, pb)
        else randomize rand ((1000 + 3000 * k : Nat) : Int) mb pb) = some c ∧
      generateBlock rand last subset_size fuel ((1000 + 3000 * k : Nat) : Int)
        ⟨⟨a, tr⟩, pos, out⟩ = Outcome.done st1 ∧
      st1.mem = c.1 ∧
      st1.out = out ++ Tok.hdr ((1000 + 3000 * k : Nat) : Int) ::
        ((mb.a.take (1000 + 3000 * k)).reverse.map Tok.ins ++ finds) ∧
      ∀ t ∈ finds, ∃ (j : Nat) (v : Int),
        (j : Int) ≤ subsetRadius subset_size ((1000 + 3000 * k : Nat) : Int) - 1 ∧
        subsetRadius subset_size ((1000 + 3000 * k : Nat) : Int) - 1 <
          ((1000 + 3000 * k : Nat) : Int) ∧
        readA c.1.a j = some v ∧ t = Tok.fnd v := by
  obtain ⟨mb, pb, c, r, pos1, finds, hb, _, hc, _, hr, _, hr2, hg, _, hall⟩ :=
    generateBlock_schedule rand last ⟨k, hk, rfl⟩ hs1 ⟨⟨a, tr⟩, pos, out⟩ hcap fuel hf
  refine ⟨mb, pb, c, _, finds, hb, hc, hg, rfl, rfl, fun t ht => ?_⟩
  obtain ⟨j, v, hj, hv, ht⟩ := hall t ht
  refine ⟨j, v, ?_, ?_, by rw [readA_natCast]; exact hv, ht⟩
  · rw [← hr]; omega
  · rw [← hr]; omega

/-- C8 at `L = 1000`, `subset_size = 10`, without `-l`, on a zeroed buffer. -/
theorem C8_find_values_from_window_witness :
    ∃ mb pb c st1 finds,
      buildArray (fun _ => 7) 2000 ((1000 + 3000 * 0 : Nat) : Int)
        ⟨List.replicate 1000 0, []⟩ 0 = Outcome.done (mb, pb) ∧
      (if false = true then some (mb, pb)
        else randomize (fun _ => 7) ((1000 + 3000 * 0 : Nat) : Int) mb pb) = some c ∧
      generateBlock (fun _ => 7) false 10 2000 ((1000 + 3000 * 0 : Nat) : Int)
        ⟨⟨List.replicate 1000 0, []⟩, 0, []⟩ = Outcome.done st1 ∧
      st1.mem = c.1 ∧
      st1.out = [] ++ Tok.hdr ((1000 + 3000 * 0 : Nat) : Int) ::
        ((mb.a.take (1000 + 3000 * 0)).reverse.map Tok.ins ++ finds) ∧
      ∀ t ∈ finds, ∃ (j : Nat) (v : Int),
        (j : Int) ≤ subsetRadius 10 ((1000 + 3000 * 0 : Nat) : Int) - 1 ∧
        subsetRadius 10 ((1000 + 3000 * 0 : Nat) : Int) - 1 <
          ((1000 + 3000 * 0 : Nat) : Int) ∧
        readA c.1.a j = some v ∧ t = Tok.fnd v :=
  C8_find_values_from_window (fun _ => 7) false 0 (by decide) 10 (by decide) (by decide)
    (List.replicate 1000 0) [] 0 [] (List.length_replicate 1000 (0 : Int)).ge 2000 (by decide)

/-- C9 (the code departs from the step policy): for `subset_size = 200000` at length `202000`
and for `subset_size = 1000000` at length `1000000` the code computes `iters = 20`, where the
policy asks for `5` and `2`; the test `r >= 100000` is made before `r >= 200000` and
`r >= 500000`, which can therefore never succeed. -/
theorem C9_iters_shadowed_branches :
    itersOf (subsetRadius 200000 202000) = 20 ∧ itersOf (subsetRadius 1000000 1000000) = 20 := by
  decide

/-- C10: for all `A`, `B` with `B ≤ A`, every stream of `rand()` values and every number of
draws already made, `nextrandom2(A, B)` returns `A` and leaves the number of draws
unchanged. -/
theorem C10_nextrandom2_degenerate (rand : Nat → Int) (pos : Nat) (A B : Int) (h : B ≤ A) :
    nextrandom2 rand A B pos = (A, pos) :=
  nextrandom2_degenerate rand A B pos h

/-- C10 at `A = 5`, `B = -2` after `7` draws. -/
theorem C10_nextrandom2_degenerate_witness :
    nextrandom2 (fun n => (n : Int)) 5 (-2) 7 = (5, 7) :=
  C10_nextrandom2_degenerate (fun n => (n : Int)) 7 5 (-2) (by decide)

/-- C11: block layout in random mode. For every accepted `subset_size`, every stream of
`rand()` values and every length `L = 1000 + 3000 k` of the schedule, the iteration for `L`
prints `# L`, then exactly `L` insert tokens, the `i`-th being `I a[L - 1 - i]` of the carved
array, then exactly `iters * r` find tokens. And `generate` itself returns `0` with an output
that begins with `# 1000`, `1000` insert tokens and `iters * r` find tokens, followed by
`# 4000`; with `subset_size = 10` these are `1000 * 10 = 10000` find tokens. -/
theorem C11_block_layout (gen : Int → Nat → Int) (rand : Nat → Int) (student_id : Int)
    (last : Bool) (subset_size : Int) (hs1 : 10 ≤ subset_size)
    (hs2 : subset_size ≤ 1000000) (k : Nat) (hk : k ≤ 333) (a : List Int)
    (tr : List (Int × Int)) (pos : Nat) (out : List Tok) (hcap : 1000000 ≤ a.length)
    (fuel : Nat) (hf : 2000000 ≤ fuel) :
    (∃ mb pb st1 inserts finds,
      buildArray rand fuel ((1000 + 3000 * k : Nat) : Int) ⟨a, tr⟩ pos = Outcome.done (mb, pb) ∧
      generateBlock rand last subset_size fuel ((1000 + 3000 * k : Nat) : Int)
        ⟨⟨a, tr⟩, pos, out⟩ = Outcome.done st1 ∧
      st1.out = out ++ Tok.hdr ((1000 + 3000 * k : Nat) : Int) :: (inserts ++ finds) ∧
      inserts.length = 1000 + 3000 * k ∧
      (∀ i : Nat, i < 1000 + 3000 * k →
        ∃ v, readA mb.a (((1000 + 3000 * k : Nat) : Int) - 1 - i) = some v ∧
          inserts[i]? = some (Tok.ins v)) ∧
      (finds.length : Int) =
        itersOf (subsetRadius subset_size ((1000 + 3000 * k : Nat) : Int)) *
          subsetRadius subset_size ((1000 + 3000 * k : Nat) : Int) ∧
      (∀ t ∈ finds, ∃ v, t = Tok.fnd v)) ∧
    (∃ (e : Exit) (inserts finds rest : List Tok),
      generate gen ⟨false, last, student_id, subset_size⟩ fuel ⟨a, tr⟩ = Outcome.done e ∧
      e.code = 0 ∧
      e.out = Tok.hdr 1000 :: (inserts ++ (finds ++ Tok.hdr 4000 :: rest)) ∧
      inserts.length = 1000 ∧ (∀ t ∈ inserts, ∃ v, t = Tok.ins v) ∧
      (finds.length : Int) = itersOf (subsetRadius subset_size 1000) *
        subsetRadius subset_size 1000 ∧
      (∀ t ∈ finds, ∃ v, t = Tok.fnd v) ∧
      (subset_size = 10 → finds.length = 10000)) := by
  constructor
  · obtain ⟨mb, pb, s1, finds, hb, hpb, hg, ho, hlen, hall, _⟩ :=
      generateBlock_layout rand last (L := 1000 + 3000 * k) ⟨k, hk, rfl⟩ hs1
        ⟨⟨a, tr⟩, pos, out⟩ (le_trans (by omega : 1000 + 3000 * k ≤ 1000000) hcap) fuel
        (by omega)
    have hl : (mb.a.take (1000 + 3000 * k)).length = 1000 + 3000 * k := by
      rw [List.length_take]; have := hpb.1; omega
    refine ⟨mb, pb, s1, (mb.a.take (1000 + 3000 * k)).reverse.map Tok.ins, finds, hb, hg, ho,
      by rw [List.length_map, List.length_reverse, hl], fun i hi => ?_, hlen, hall⟩
    have hj : 1000 + 3000 * k - 1 - i < mb.a.length := by have := hpb.1; omega
    refine ⟨mb.a[1000 + 3000 * k - 1 - i], ?_, ?_⟩
    · have e : ((1000 + 3000 * k : Nat) : Int) - 1 - (i : Int) =
          ((1000 + 3000 * k - 1 - i : Nat) : Int) := by omega
      rw [e, readA_natCast, List.getElem?_eq_getElem hj]
    · rw [List.getElem?_map, List.getElem?_reverse (by omega), hl,
        List.getElem?_take_of_lt (by omega), List.getElem?_eq_getElem hj]
      rfl
  · obtain ⟨e, inserts, finds, rest, hg, hc, ho, hl, hi, hlen, hall⟩ :=
      generate_first_block gen ⟨false, last, student_id, subset_size⟩ rfl hs1 hs2 ⟨a, tr⟩ hcap
        fuel hf
    refine ⟨e, inserts, finds, rest, hg, hc, ho, hl, hi, hlen, hall, fun h10 => ?_⟩
    have hlen2 : (finds.length : Int) = itersOf (subsetRadius subset_size 1000) *
        subsetRadius subset_size 1000 := hlen
    rw [h10] at hlen2
    have e10 : itersOf (subsetRadius 10 1000) * subsetRadius 10 1000 = 10000 := by decide
    rw [e10] at hlen2
    exact_mod_cast hlen2

/-- C11 at seed `42`, `subset_size = 10`, on a zeroed buffer of `1000000` slots. -/
theorem C11_block_layout_witness :
    (∃ mb pb st1 inserts finds,
      buildArray (fun n => (n : Int)) 2000000 ((1000 + 3000 * 0 : Nat) : Int)
        ⟨List.replicate 1000000 0, []⟩ 0 = Outcome.done (mb, pb) ∧
      generateBlock (fun n => (n : Int)) false 10 2000000 ((1000 + 3000 * 0 : Nat) : Int)
        ⟨⟨List.replicate 1000000 0, []⟩, 0, []⟩ = Outcome.done st1 ∧
      st1.out = [] ++ Tok.hdr ((1000 + 3000 * 0 : Nat) : Int) :: (inserts ++ finds) ∧
      inserts.length = 1000 + 3000 * 0 ∧
      (∀ i : Nat, i < 1000 + 3000 * 0 →
        ∃ v, readA mb.a (((1000 + 3000 * 0 : Nat) : Int) - 1 - i) = some v ∧
          inserts[i]? = some (Tok.ins v)) ∧
      (finds.length : Int) =
        itersOf (subsetRadius 10 ((1000 + 3000 * 0 : Nat) : Int)) *
          subsetRadius 10 ((1000 + 3000 * 0 : Nat) : Int) ∧
      (∀ t ∈ finds, ∃ v, t = Tok.fnd v)) ∧
    (∃ (e : Exit) (inserts finds rest : List Tok),
      generate (fun sd n => sd + n) ⟨false, false, 42, 10⟩ 2000000
        ⟨List.replicate 1000000 0, []⟩ = Outcome.done e ∧
      e.code = 0 ∧
      e.out = Tok.hdr 1000 :: (inserts ++ (finds ++ Tok.hdr 4000 :: rest)) ∧
      inserts.length = 1000 ∧ (∀ t ∈ inserts, ∃ v, t = Tok.ins v) ∧
      (finds.length : Int) = itersOf (subsetRadius 10 1000) * subsetRadius 10 1000 ∧
      (∀ t ∈ finds, ∃ v, t = Tok.fnd v) ∧
      ((10 : Int) = 10 → finds.length = 10000)) :=
  C11_block_layout (fun sd n => sd + n) (fun n => (n : Int)) 42 false 10 (by decide)
    (by decide) 0 (by decide) (List.replicate 1000000 0) [] 0 []
    (List.length_replicate 1000000 (0 : Int)).ge 2000000 (by decide)

/-- C12: sequential mode. When `-b` is given and `-t` is not (its value is negative), `generate`
returns `0` for every seed, every stream of `rand()` values and every `-l`, and its output is
the `20` blocks for `elements = 100, 200, ..., 2000` in that order, each being `# elements`,
then `I 1` to `I elements` ascending, then two full passes of `F 1` to `F elements/2`
ascending; nothing is written to the error stream. -/
theorem C12_sequential_mode_output (gen : Int → Nat → Int) (fl : Flags) (fuel : Nat) (m : Mem)
    (hb : fl.sequential = true) (ht : fl.subset_size < 0) :
    generate gen fl fuel m = Outcome.done ⟨0, seqOutputSpec, []⟩ := by
  unfold generate
  rw [hb, if_neg (by simp [ht]), if_pos rfl, sequential_generator_eq]

/-- C12 with seed `7` and `-l`, on an empty buffer without fuel. -/
theorem C12_sequential_mode_output_witness :
    generate (fun sd n => sd + n) ⟨true, true, 7, -1⟩ 0 ⟨[], []⟩ =
      Outcome.done ⟨0, seqOutputSpec, []⟩ :=
  C12_sequential_mode_output (fun sd n => sd + n) ⟨true, true, 7, -1⟩ 0 ⟨[], []⟩ rfl
    (by decide)

/-- C13: parameter validation. When `-b` is given together with a `-t` value `≥ 0`, or neither
`-b` nor `-t` is given (`subset_size = -1`), or `-t` is given without `-b` with a value outside
`[10, 1000000]`, `generate` returns `1` and prints no token (`#`, `I` or `F`). -/
theorem C13_parameter_validation (gen : Int → Nat → Int) (fl : Flags) (fuel : Nat) (m : Mem)
    (h : (fl.sequential = true ∧ 0 ≤ fl.subset_size) ∨
      (fl.sequential = false ∧ fl.subset_size = -1) ∨
      (fl.sequential = false ∧ (fl.subset_size < 10 ∨ 1000000 < fl.subset_size))) :
    ∃ e, generate gen fl fuel m = Outcome.done e ∧ e.code = 1 ∧ e.out = [] := by
  unfold generate
  rcases h with ⟨hb, ht⟩ | ⟨hb, ht⟩ | ⟨hb, ht⟩
  · rw [hb, if_pos (by simp; omega)]
    exact ⟨_, rfl, rfl, rfl⟩
  · rw [hb, if_pos (by simp [ht])]
    exact ⟨_, rfl, rfl, rfl⟩
  · rw [hb]
    by_cases hneg : fl.subset_size < 0
    · rw [if_pos (by simp [hneg])]
      exact ⟨_, rfl, rfl, rfl⟩
    · rw [if_neg (by simp [hneg]), if_neg (by simp)]
      simp only
      rw [if_pos (by omega)]
      exact ⟨_, rfl, rfl, rfl⟩

/-- C13 at `-b -t 50`. -/
theorem C13_parameter_validation_witness :
    ∃ e, generate (fun sd n => sd + n) ⟨true, false, -1, 50⟩ 0 ⟨[], []⟩ = Outcome.done e ∧
      e.code = 1 ∧ e.out = [] :=
  C13_parameter_validation (fun sd n => sd + n) ⟨true, false, -1, 50⟩ 0 ⟨[], []⟩
    (Or.inl ⟨rfl, by decide⟩)

/-- C14: determinism. Two calls of `generate` with the same `-b`, `-l` and `-t` values, and with
seeds (the default `42` standing for a missing `-s`) whose streams of `rand()` values are the
same, return the same code and print the same tokens; this holds whatever the global array
holds when each call starts and whatever fuel (enough for `2000000` loop passes) each run is
given, so the output depends on the seed through the stream of draws only. -/
theorem C14_determinism (gen1 gen2 : Int → Nat → Int) (sequential last : Bool)
    (subset_size sid1 sid2 : Int) (a1 a2 : List Int) (tr1 tr2 : List (Int × Int))
    (f1 f2 : Nat)
    (hdraws : ∀ n, gen1 (if sid1 < 0 then 42 else sid1) n =
      gen2 (if sid2 < 0 then 42 else sid2) n)
    (hc1 : 1000000 ≤ a1.length) (hc2 : 1000000 ≤ a2.length) (hf1 : 2000000 ≤ f1)
    (hf2 : 2000000 ≤ f2) :
    ∃ e1 e2, generate gen1 ⟨sequential, last, sid1, subset_size⟩ f1 ⟨a1, tr1⟩ = Outcome.done e1 ∧
      generate gen2 ⟨sequential, last, sid2, subset_size⟩ f2 ⟨a2, tr2⟩ = Outcome.done e2 ∧
      e1.code = e2.code ∧ e1.out = e2.out := by
  have hfun : gen1 (if sid1 < 0 then 42 else sid1) = gen2 (if sid2 < 0 then 42 else sid2) :=
    funext hdraws
  unfold generate
  simp only
  by_cases hx : xor sequential (decide (subset_size < 0)) = true
  · rw [if_pos hx, if_pos hx]
    exact ⟨_, _, rfl, rfl, rfl, rfl⟩
  · rw [if_neg hx, if_neg hx]
    by_cases hs : sequential = true
    · rw [if_pos hs, if_pos hs]
      exact ⟨_, _, rfl, rfl, rfl, rfl⟩
    · rw [if_neg hs, if_neg hs]
      by_cases hr : subset_size < 10 ∨ subset_size > 1000000
      · rw [if_pos hr, if_pos hr]
        exact ⟨_, _, rfl, rfl, rfl, rfl⟩
      · rw [if_neg hr, if_neg hr]
        rw [not_or] at hr
        obtain ⟨s1, s2, g1, g2, ho, _⟩ :=
          generateLoop_agree (gen1 (if sid1 < 0 then 42 else sid1)) last
            (show 10 ≤ subset_size by omega) f1 f2
            hf1 hf2 334 0 ⟨⟨a1, tr1⟩, 0, []⟩ ⟨⟨a2, tr2⟩, 0, []⟩ (by omega) hc1 hc2 rfl rfl
        have e0 : ((1000 + 3000 * 0 : Nat) : Int) = 1000 := by norm_num
        rw [e0] at g1 g2
        rw [hfun] at g1 g2
        rw [hfun, g1, g2, outcome_bind_done, outcome_bind_done]
        exact ⟨_, _, rfl, rfl, rfl, ho⟩

/-- C14 at seed `7`, `-t 10`, without `-l`: one run on a zeroed buffer, the other on a buffer
that holds `5` in every slot. -/
theorem C14_determinism_witness :
    ∃ e1 e2, generate (fun sd n => sd + n) ⟨false, false, 7, 10⟩ 2000000
        ⟨List.replicate 1000000 0, []⟩ = Outcome.done e1 ∧
      generate (fun sd n => sd + n) ⟨false, false, 7, 10⟩ 3000000
        ⟨List.replicate 1000000 5, [(0, 0)]⟩ = Outcome.done e2 ∧
      e1.code = e2.code ∧ e1.out = e2.out :=
  C14_determinism (fun sd n => sd + n) (fun sd n => sd + n) false false 10 7 7
    (List.replicate 1000000 0) (List.replicate 1000000 5) [] [(0, 0)] 2000000 3000000
    (fun _ => rfl) (List.length_replicate 1000000 (0 : Int)).ge
    (List.length_replicate 1000000 (5 : Int)).ge (by decide) (by decide)

/-- C15: the mode `-l`. For every accepted `subset_size`, every stream of `rand()` values and
every length `L = 1000 + 3000 k` of the schedule, with `-l` the finds of the block are sampled
from the carved array that was printed: the memory the block leaves is the carved one, and every
`F` value is one of the last `r = min(subset_size, L)` `I` values of the block, which are
`a[r-1], ..., a[0]`. Without `-l` the memory the block leaves is the carved one passed through
`randomize(L)` once more. -/
theorem C15_last_mode_samples_carved_array (rand : Nat → Int) (k : Nat) (hk : k ≤ 333)
    (subset_size : Int) (hs1 : 10 ≤ subset_size) (_hs2 : subset_size ≤ 1000000)
    (a : List Int) (tr : List (Int × Int)) (pos : Nat) (out : List Tok)
    (hcap : 1000 + 3000 * k ≤ a.length) (fuel : Nat) (hf : 2 * (1000 + 3000 * k) ≤ fuel) :
    ∃ (mb : Mem) (pb : Nat),
      buildArray rand fuel ((1000 + 3000 * k : Nat) : Int) ⟨a, tr⟩ pos = Outcome.done (mb, pb) ∧
      (∃ (st1 : GenState) (vals : List Int) (finds : List Tok) (r : Nat),
        generateBlock rand true subset_size fuel ((1000 + 3000 * k : Nat) : Int)
          ⟨⟨a, tr⟩, pos, out⟩ = Outcome.done st1 ∧
        st1.mem = mb ∧
        (r : Int) = subsetRadius subset_size ((1000 + 3000 * k : Nat) : Int) ∧
        st1.out = out ++ Tok.hdr ((1000 + 3000 * k : Nat) : Int) ::
          (vals.map Tok.ins ++ finds) ∧
        vals = (mb.a.take (1000 + 3000 * k)).reverse ∧
        vals.drop (1000 + 3000 * k - r) = (mb.a.take r).reverse ∧
        ∀ t ∈ finds, ∃ v, t = Tok.fnd v ∧ v ∈ vals.drop (1000 + 3000 * k - r)) ∧
      (∃ (st2 : GenState) (c : Mem × Nat),
        randomize rand ((1000 + 3000 * k : Nat) : Int) mb pb = some c ∧
        generateBlock rand false subset_size fuel ((1000 + 3000 * k : Nat) : Int)
          ⟨⟨a, tr⟩, pos, out⟩ = Outcome.done st2 ∧
        st2.mem = c.1) := by
  obtain ⟨mb, pb, c, r, pos1, finds, hb, hpb, hc, _, hr, _, hr2, hg, _, hall⟩ :=
    generateBlock_schedule rand true ⟨k, hk, rfl⟩ hs1 ⟨⟨a, tr⟩, pos, out⟩ hcap fuel hf
  obtain ⟨mb2, pb2, c2, _, pos2, finds2, hb2, _, hc2, _, _, _, _, hg2, _, _⟩ :=
    generateBlock_schedule rand false ⟨k, hk, rfl⟩ hs1 ⟨⟨a, tr⟩, pos, out⟩ hcap fuel hf
  rw [hb] at hb2
  cases hb2
  simp only [if_true, Option.some.injEq] at hc
  subst hc
  simp only [Bool.false_eq_true, if_false] at hc2
  have hl : (mb.a.take (1000 + 3000 * k)).length = 1000 + 3000 * k := by
    rw [List.length_take]; have := hpb.1; omega
  have hdrop : (mb.a.take (1000 + 3000 * k)).reverse.drop (1000 + 3000 * k - r) =
      (mb.a.take r).reverse := by
    rw [List.drop_reverse, hl, List.take_take]
    congr 2
    omega
  refine ⟨mb, pb, hb, ⟨_, _, finds, r, hg, rfl, hr, rfl, rfl, hdrop, fun t ht => ?_⟩,
    ⟨_, c2, hc2, hg2, rfl⟩⟩
  obtain ⟨j, v, hj, hv, htv⟩ := hall t ht
  refine ⟨v, htv, ?_⟩
  rw [hdrop, List.mem_reverse]
  apply List.getElem?_mem (n := j)
  rw [List.getElem?_take_of_lt hj]
  exact hv

/-- C15 at `L = 1000`, `subset_size = 10`, on a zeroed buffer. -/
theorem C15_last_mode_samples_carved_array_witness :
    ∃ (mb : Mem) (pb : Nat),
      buildArray (fun _ => 7) 2000 ((1000 + 3000 * 0 : Nat) : Int)
        ⟨List.replicate 1000 0, []⟩ 0 = Outcome.done (mb, pb) ∧
      (∃ (st1 : GenState) (vals : List Int) (finds : List Tok) (r : Nat),
        generateBlock (fun _ => 7) true 10 2000 ((1000 + 3000 * 0 : Nat) : Int)
          ⟨⟨List.replicate 1000 0, []⟩, 0, []⟩ = Outcome.done st1 ∧
        st1.mem = mb ∧
        (r : Int) = subsetRadius 10 ((1000 + 3000 * 0 : Nat) : Int) ∧
        st1.out = [] ++ Tok.hdr ((1000 + 3000 * 0 : Nat) : Int) ::
          (vals.map Tok.ins ++ finds) ∧
        vals = (mb.a.take (1000 + 3000 * 0)).reverse ∧
        vals.drop (1000 + 3000 * 0 - r) = (mb.a.take r).reverse ∧
        ∀ t ∈ finds, ∃ v, t = Tok.fnd v ∧ v ∈ vals.drop (1000 + 3000 * 0 - r)) ∧
      (∃ (st2 : GenState) (c : Mem × Nat),
        randomize (fun _ => 7) ((1000 + 3000 * 0 : Nat) : Int) mb pb = some c ∧
        generateBlock (fun _ => 7) false 10 2000 ((1000 + 3000 * 0 : Nat) : Int)
          ⟨⟨List.replicate 1000 0, []⟩, 0, []⟩ = Outcome.done st2 ∧
        st2.mem = c.1) :=
  C15_last_mode_samples_carved_array (fun _ => 7) 0 (by decide) 10 (by decide) (by decide)
    (List.replicate 1000 0) [] 0 [] (List.length_replicate 1000 (0 : Int)).ge 2000
    (by decide)

/-- C16 (amended): the already-in-place check of `makeprogression` compares the cursor, not the
value, with the progression index. For every index `i` below `len` that the scan visits, if
`i == s + inc*(a[i] - A)` (in `int` arithmetic), the pass leaves the memory as it is, logs no
swap, and the scan moves on to index `i + 1`. -/
theorem C16_in_place_check_on_cursor (A B s inc len : Int) (m : Mem) (i x : Int)
    (hi : i < len) (hx : readA m.a i = some x) (hplace : i = progIndex A s inc x) :
    makeprogressionBody A B s inc m i = some (m, i) ∧
    makeprogressionPasses A B s inc len 1 m i = some (m, i + 1) := by
  have hb : makeprogressionBody A B s inc m i = some (m, i) := by
    unfold makeprogressionBody
    rw [hx]; dsimp only
    rw [if_pos hplace]
  refine ⟨hb, ?_⟩
  rw [makeprogressionPasses, if_pos hi, hb]
  rfl

/-- C16 (amended) at `a = [4, 1, 0, 3, 2]`, cursor `1`, descriptor `(1, 2, 1, 3)`. -/
theorem C16_in_place_check_on_cursor_witness :
    makeprogressionBody 1 2 1 3 ⟨[4, 1, 0, 3, 2], []⟩ 1 = some (⟨[4, 1, 0, 3, 2], []⟩, 1) ∧
    makeprogressionPasses 1 2 1 3 5 1 ⟨[4, 1, 0, 3, 2], []⟩ 1 =
      some (⟨[4, 1, 0, 3, 2], []⟩, 1 + 1) :=
  C16_in_place_check_on_cursor 1 2 1 3 5 ⟨[4, 1, 0, 3, 2], []⟩ 1 1 (by decide) (by decide)
    (by decide)

/-- C16 as worded fails: on the permutation `a = [1, 0]` with the descriptor `(0, 1, 0, 1)`,
which satisfies the precondition, the value at index `0` satisfies
`a[0] == s + inc*(a[0] - A)`, yet the pass at index `0` swaps slots `0` and `1` and leaves the
cursor to be rechecked. -/
theorem C16_value_test_does_not_skip :
    IsPermPrefix [1, 0] 2 ∧
    (∀ v : Int, 0 ≤ v → v ≤ 1 → 0 ≤ 0 + 1 * (v - 0) ∧ 0 + 1 * (v - 0) < 2) ∧
    readA [1, 0] 0 = some 1 ∧ (1 : Int) = 0 + 1 * (1 - 0) ∧
    makeprogressionBody 0 1 0 1 ⟨[1, 0], []⟩ 0 = some (⟨[0, 1], [(0, 1)]⟩, -1) ∧
    makeprogressionPasses 0 1 0 1 2 1 ⟨[1, 0], []⟩ 0 = some (⟨[0, 1], [(0, 1)]⟩, 0) :=
  ⟨by decide, fun v h1 h2 => by omega, by decide, by decide, by decide, by decide⟩

/-- C17 (amended): under the precondition of `makeprogression`, the values outside `[A, B]`
that do not sit at a progression index `s + inc*(v - A)`, `v` in `[A, B]`, keep their relative
order: if `x1` is at index `j1` and `x2` at a later index `j2` before the call, then wherever
`x1` and `x2` are found in the first `len` slots after the call, `x1` comes before `x2`. -/
theorem C17_unmoved_values_keep_order (len : Nat) (a : List Int) (tr : List (Int × Int))
    (A B s inc : Int) (hlen : (len : Int) ≤ 2147483647) (hperm : IsPermPrefix a len)
    (hA : 0 ≤ A) (hAB : A ≤ B) (hB : B ≤ (len : Int) - 1) (hinc : inc ≠ 0)
    (hdest : ∀ v, A ≤ v → v ≤ B → 0 ≤ s + inc * (v - A) ∧ s + inc * (v - A) < len)
    (fuel : Nat) (hf : len + (B - A + 1).toNat ≤ fuel)
    (j1 j2 : Nat) (x1 x2 : Int) (hj : j1 < j2) (hj2 : j2 < len)
    (hx1 : readA a j1 = some x1) (hx2 : readA a j2 = some x2)
    (hout1 : ¬ (A ≤ x1 ∧ x1 ≤ B)) (hout2 : ¬ (A ≤ x2 ∧ x2 ≤ B))
    (hfree1 : ∀ v, A ≤ v → v ≤ B → s + inc * (v - A) ≠ j1)
    (hfree2 : ∀ v, A ≤ v → v ≤ B → s + inc * (v - A) ≠ j2) :
    ∃ m1, makeprogression A B s inc len fuel ⟨a, tr⟩ = Outcome.done m1 ∧
      (∃ k1 k2 : Nat, k1 < k2 ∧ k2 < len ∧ readA m1.a k1 = some x1 ∧
        readA m1.a k2 = some x2) ∧
      ∀ k1 k2 : Nat, k1 < len → k2 < len → readA m1.a k1 = some x1 →
        readA m1.a k2 = some x2 → k1 < k2 := by
  have hp : CarvePre A B s inc len := ⟨hA, hAB, hB, hinc, hdest, hlen⟩
  obtain ⟨m1, h1, hI⟩ := makeprogression_inv hp ⟨a, tr⟩ hperm fuel hf
  have e1 := hI.keeps hx1 hout1 hfree1
  have e2 := hI.keeps hx2 hout2 hfree2
  refine ⟨m1, h1, ⟨j1, j2, hj, hj2, e1, e2⟩, fun k1 k2 hk1 hk2 g1 g2 => ?_⟩
  rw [readA_natCast] at e1 e2 g1 g2
  have := hI.perm.inj hk1 (by omega) g1 e1
  have := hI.perm.inj hk2 hj2 g2 e2
  omega

/-- C17 (amended) at `a = [4, 1, 0, 3, 2]` with the descriptor `(1, 2, 1, 1)`: the values `4`
and `3` at the indices `0` and `3`. -/
theorem C17_unmoved_values_keep_order_witness :
    ∃ m1, makeprogression 1 2 1 1 (5 : Nat) 7 ⟨[4, 1, 0, 3, 2], []⟩ = Outcome.done m1 ∧
      (∃ k1 k2 : Nat, k1 < k2 ∧ k2 < 5 ∧ readA m1.a k1 = some 4 ∧
        readA m1.a k2 = some 3) ∧
      ∀ k1 k2 : Nat, k1 < 5 → k2 < 5 → readA m1.a k1 = some 4 →
        readA m1.a k2 = some 3 → k1 < k2 :=
  C17_unmoved_values_keep_order 5 [4, 1, 0, 3, 2] [] 1 2 1 1 (by decide) (by decide)
    (by decide) (by decide) (by decide) (by decide) (fun v h1 h2 => by omega) 7 (by decide)
    0 3 4 3 (by decide) (by decide) (by decide) (by decide) (by decide) (by decide)
    (fun v h1 h2 => by omega) (fun v h1 h2 => by omega)

/-- C17 as stated fails: on the permutation `a = [1, 2, 0]` with the descriptor `(0, 0, 0, 1)`,
which satisfies the precondition, the values `1` and `2` outside `[0, 0]` stand in the order
`1, 2` before the call and in the order `2, 1` after it. -/
theorem C17_displaced_value_changes_order :
    IsPermPrefix [1, 2, 0] 3 ∧
    (∀ v : Int, 0 ≤ v → v ≤ 0 → 0 ≤ 0 + 1 * (v - 0) ∧ 0 + 1 * (v - 0) < 3) ∧
    makeprogression 0 0 0 1 3 4 ⟨[1, 2, 0], []⟩ = Outcome.done ⟨[0, 2, 1], [(2, 0)]⟩ ∧
    readA [1, 2, 0] 0 = some 1 ∧ readA [1, 2, 0] 1 = some 2 ∧
    readA [0, 2, 1] 2 = some 1 ∧ readA [0, 2, 1] 1 = some 2 :=
  ⟨by decide, fun v h1 h2 => by omega, by decide, by decide, by decide, by decide, by decide⟩

/-- C18: frame of `makeprogression`. Under the precondition, every index `j` below `len` that
is no progression index `s + inc*(v - A)`, `v` in `[A, B]`, and whose value before the call
lies outside `[A, B]`, holds the same value after the call; so a slot of the first `len` whose
value has changed is a progression index or held a value of `[A, B]`. -/
theorem C18_makeprogression_frame (len : Nat) (a : List Int) (tr : List (Int × Int))
    (A B s inc : Int) (hlen : (len : Int) ≤ 2147483647) (hperm : IsPermPrefix a len)
    (hA : 0 ≤ A) (hAB : A ≤ B) (hB : B ≤ (len : Int) - 1) (hinc : inc ≠ 0)
    (hdest : ∀ v, A ≤ v → v ≤ B → 0 ≤ s + inc * (v - A) ∧ s + inc * (v - A) < len)
    (fuel : Nat) (hf : len + (B - A + 1).toNat ≤ fuel) :
    ∃ m1, makeprogression A B s inc len fuel ⟨a, tr⟩ = Outcome.done m1 ∧
      (∀ (j : Nat) (x : Int), j < len → readA a j = some x → ¬ (A ≤ x ∧ x ≤ B) →
        (∀ v, A ≤ v → v ≤ B → s + inc * (v - A) ≠ j) → readA m1.a j = some x) ∧
      (∀ (j : Nat) (x : Int), j < len → readA a j = some x → readA m1.a j ≠ some x →
        (A ≤ x ∧ x ≤ B) ∨ ∃ v, A ≤ v ∧ v ≤ B ∧ s + inc * (v - A) = j) := by
  have hp : CarvePre A B s inc len := ⟨hA, hAB, hB, hinc, hdest, hlen⟩
  obtain ⟨m1, h1, hI⟩ := makeprogression_inv hp ⟨a, tr⟩ hperm fuel hf
  refine ⟨m1, h1, fun j x _ hx hout hfree => hI.keeps hx hout hfree,
    fun j x _ hx hne => ?_⟩
  by_contra hc
  rw [not_or] at hc
  apply hne
  refine hI.keeps hx hc.1 (fun v hv1 hv2 e => hc.2 ⟨v, hv1, hv2, e⟩)

/-- C18 at `a = [4, 1, 0, 3, 2]` with the descriptor `(1, 2, 1, 1)`. -/
theorem C18_makeprogression_frame_witness :
    ∃ m1, makeprogression 1 2 1 1 (5 : Nat) 7 ⟨[4, 1, 0, 3, 2], []⟩ = Outcome.done m1 ∧
      (∀ (j : Nat) (x : Int), j < 5 → readA [4, 1, 0, 3, 2] j = some x →
        ¬ ((1 : Int) ≤ x ∧ x ≤ 2) →
        (∀ v, (1 : Int) ≤ v → v ≤ 2 → 1 + 1 * (v - 1) ≠ j) → readA m1.a j = some x) ∧
      (∀ (j : Nat) (x : Int), j < 5 → readA [4, 1, 0, 3, 2] j = some x →
        readA m1.a j ≠ some x →
        ((1 : Int) ≤ x ∧ x ≤ 2) ∨ ∃ v, (1 : Int) ≤ v ∧ v ≤ 2 ∧ 1 + 1 * (v - 1) = j) :=
  C18_makeprogression_frame 5 [4, 1, 0, 3, 2] [] 1 2 1 1 (by decide) (by decide)
    (by decide) (by decide) (by decide) (by decide) (fun v h1 h2 => by omega) 7 (by decide)

/-- C19: idempotence of `makeprogression`. Under the precondition, a second call with the same
descriptor on the memory that the first call returned gives back that memory unchanged: the
array is the same and no swap is added to the trace. -/
theorem C19_makeprogression_idempotent (len : Nat) (a : List Int) (tr : List (Int × Int))
    (A B s inc : Int) (hlen : (len : Int) ≤ 2147483647) (hperm : IsPermPrefix a len)
    (hA : 0 ≤ A) (hAB : A ≤ B) (hB : B ≤ (len : Int) - 1) (hinc : inc ≠ 0)
    (hdest : ∀ v, A ≤ v → v ≤ B → 0 ≤ s + inc * (v - A) ∧ s + inc * (v - A) < len)
    (fuel : Nat) (hf : len + (B - A + 1).toNat ≤ fuel) (fuel2 : Nat) (hf2 : len ≤ fuel2) :
    ∃ m1, makeprogression A B s inc len fuel ⟨a, tr⟩ = Outcome.done m1 ∧
      makeprogression A B s inc len fuel2 m1 = Outcome.done m1 := by
  have hp : CarvePre A B s inc len := ⟨hA, hAB, hB, hinc, hdest, hlen⟩
  obtain ⟨m1, h1, hI⟩ := makeprogression_inv hp ⟨a, tr⟩ hperm fuel hf
  exact ⟨m1, h1, makeprogression_parked_noop hp m1 hI.perm
    (fun v hv1 hv2 => hI.post hp hv1 hv2) fuel2 hf2⟩

/-- C19 at `a = [4, 1, 0, 3, 2]` with the descriptor `(1, 2, 3, -1)`. -/
theorem C19_makeprogression_idempotent_witness :
    ∃ m1, makeprogression 1 2 3 (-1) (5 : Nat) 7 ⟨[4, 1, 0, 3, 2], []⟩ = Outcome.done m1 ∧
      makeprogression 1 2 3 (-1) (5 : Nat) 5 m1 = Outcome.done m1 :=
  C19_makeprogression_idempotent 5 [4, 1, 0, 3, 2] [] 1 2 3 (-1) (by decide) (by decide)
    (by decide) (by decide) (by decide) (by decide) (fun v h1 h2 => by omega) 7 (by decide)
    5 (by decide)

/-- C20: the no-collision precondition is needed. For `len = 3`, `a = [0, 1, 2]` and the
descriptor `(0, 1, 2, 0)`, whose two progression indices are both `2` (in bounds, colliding),
`makeprogression` does not return for any amount of fuel; after any number `n + 2` of passes
the cursor is at index `1`, every pass after the second has swapped slots `1` and `2`, and the
array is still a permutation of `0, 1, 2`. -/
theorem C20_collision_never_terminates :
    IsPermPrefix [0, 1, 2] 3 ∧
    (∀ v : Int, 0 ≤ v → v ≤ 1 → 0 ≤ 2 + 0 * (v - 0) ∧ 2 + 0 * (v - 0) < 3) ∧
    (∀ fuel, makeprogression 0 1 2 0 3 fuel ⟨[0, 1, 2], []⟩ = Outcome.timeout) ∧
    (∀ n, ∃ m, makeprogressionPasses 0 1 2 0 3 (n + 2) ⟨[0, 1, 2], []⟩ 0 = some (m, 1) ∧
      IsPermPrefix m.a 3 ∧ m.swaps = (0, 2) :: List.replicate n (1, 2)) := by
  refine ⟨by decide, fun v h1 h2 => by omega, fun fuel => ?_, fun n => ?_⟩
  · match fuel with
    | 0 => rfl
    | 1 => rfl
    | fuel + 2 => exact (collide_loop_timeout fuel [(0, 2)]).1
  · obtain ⟨m, h1, h2, h3⟩ := (collide_passes n [(0, 2)]).1
    refine ⟨m, h1, ?_, by simpa using h3⟩
    rcases h2 with h | h <;> rw [h] <;> decide

end SplayGen
